import Mathlib

/-!
Verification of the core of the Ajv JSON-schema validator (orchestrator,
rule registry, schema cache, and representative keyword templates) against
its natural-language specification.  The TypeScript source is embedded
shallowly: JavaScript objects become association lists, mutable instance
state becomes explicit state passing, thrown exceptions become error
results, and the cooperative async loop of compileAsync becomes a labelled
transition system whose atomic steps are the synchronous segments between
awaits.
-/

/-- JSON-like runtime values as JavaScript sees them: the six JSON
constructors plus the JavaScript value undefined, which can occur as a
property value of data passed to a validator.  Numbers are modelled as
integers (all numbers appearing in the claims are integral). -/
inductive Json where
  | null
  | undef
  | bool (b : Bool)
  | num (n : Int)
  | str (s : String)
  | arr (items : List Json)
  | obj (fields : List (String × Json))

/-- Association-list lookup, the model of reading a property of a
JavaScript object or map: the first entry with the given key wins. -/
def alookup {α β : Type} [DecidableEq α] (k : α) : List (α × β) → Option β
  | [] => none
  | p :: ps => if p.1 = k then some p.2 else alookup k ps

/-- Key order used to sort the fields of an object: compare the keys. -/
def keyLe (p q : String × Json) : Prop := p.1 ≤ q.1

instance : DecidableRel keyLe := fun p q => inferInstanceAs (Decidable (p.1 ≤ q.1))

instance : IsTotal (String × Json) keyLe := ⟨fun a b => le_total a.1 b.1⟩

instance : IsTrans (String × Json) keyLe := ⟨fun _ _ _ h1 h2 => le_trans h1 h2⟩

/-- Sort the fields of an object by key (the canonicalization step
"sorts object keys recursively before serializing"). -/
def sortFields (fs : List (String × Json)) : List (String × Json) :=
  List.insertionSort keyLe fs

mutual
/-- Modelled from the spec: the stable canonicalization used by the default
serialize function (fast-json-stable-stringify, an external collaborator
whose code is not part of this repository).  Per the spec it "sorts object
keys recursively before serializing" and "must preserve equivalence with
deep structural equality", so serialization is injective on canonical
forms; we therefore use the canonical form itself as the serialized cache
or hash key. -/
def canon : Json → Json
  | .obj fs => .obj (sortFields (canonF fs))
  | .arr xs => .arr (canonL xs)
  | x => x

/-- Canonicalize every element of an array. -/
def canonL : List Json → List Json
  | [] => []
  | x :: xs => canon x :: canonL xs

/-- Canonicalize every field value of an object. -/
def canonF : List (String × Json) → List (String × Json)
  | [] => []
  | (k, v) :: fs => (k, canon v) :: canonF fs
end

mutual
/-- Boolean structural equality of Json values (plain constructor-wise
equality; used as the model of comparing two serialized strings). -/
def jeqb : Json → Json → Bool
  | .null, .null => true
  | .undef, .undef => true
  | .bool a, .bool b => a == b
  | .num a, .num b => a == b
  | .str a, .str b => a == b
  | .arr xs, .arr ys => jeqbL xs ys
  | .obj fs, .obj gs => jeqbF fs gs
  | _, _ => false

/-- Pointwise structural equality of two lists of Json values. -/
def jeqbL : List Json → List Json → Bool
  | [], [] => true
  | x :: xs, y :: ys => jeqb x y && jeqbL xs ys
  | _, _ => false

/-- Pointwise structural equality of two field lists. -/
def jeqbF : List (String × Json) → List (String × Json) → Bool
  | [], [] => true
  | (k, v) :: fs, (l, w) :: gs => k == l && jeqb v w && jeqbF fs gs
  | _, _ => false
end

/-- No key occurs twice in a key list. -/
def nodupKeysB : List String → Bool
  | [] => true
  | k :: ks => !(ks.contains k) && nodupKeysB ks

mutual
/-- Well-formedness of a Json value as a JavaScript runtime value: every
object has pairwise-distinct property keys (JavaScript objects cannot hold
the same own property twice). -/
def wfJ : Json → Bool
  | .arr xs => wfL xs
  | .obj fs => nodupKeysB (fs.map Prod.fst) && wfF fs
  | _ => true

/-- Well-formedness of every element of an array. -/
def wfL : List Json → Bool
  | [] => true
  | x :: xs => wfJ x && wfL xs

/-- Well-formedness of every field value of an object. -/
def wfF : List (String × Json) → Bool
  | [] => true
  | (_, v) :: fs => wfJ v && wfF fs
end

/-- Deep structural equality of two JavaScript values, stated from the
spec's words and independently of any canonicalization: scalars must be
identical, arrays must have the same length and deeply-equal elements
position by position, and objects must have the same set of present keys
with deeply-equal values at every key. -/
inductive DeepEq : Json → Json → Prop where
  | null : DeepEq .null .null
  | undef : DeepEq .undef .undef
  | bool (b : Bool) : DeepEq (.bool b) (.bool b)
  | num (n : Int) : DeepEq (.num n) (.num n)
  | str (s : String) : DeepEq (.str s) (.str s)
  | arr {xs ys : List Json} (hlen : xs.length = ys.length)
      (hpt : ∀ (i : Nat) (h1 : i < xs.length) (h2 : i < ys.length),
        DeepEq (xs.get ⟨i, h1⟩) (ys.get ⟨i, h2⟩)) :
      DeepEq (.arr xs) (.arr ys)
  | obj {fs gs : List (String × Json)}
      (hdom : ∀ k, (alookup k fs).isSome = (alookup k gs).isSome)
      (hval : ∀ k v w, alookup k fs = some v → alookup k gs = some w → DeepEq v w) :
      DeepEq (.obj fs) (.obj gs)

/-- The compiled enum validator from the enum code template: a hash is
precomputed keying the stable serialization of every member, and the data
validates iff its own stable serialization hits the hash.  Serialization
is modelled by the canonical form (see canon). -/
def enumValidate (members : List Json) (data : Json) : Bool :=
  members.any (fun m => jeqb (canon m) (canon data))

/-- The enum members of the spec's end-to-end scenario. -/
def exEnumMembers : List Json :=
  [.obj [("a", .num 1)], .obj [("b", .num 2)]]

/-- An error object as far as errorsText consumes it. -/
structure ErrObj where
  dataPath : String
  message : String

/-- The message built for one error: dataVar ++ dataPath ++ " " ++ message. -/
def fmtError (dataVar : String) (e : ErrObj) : String :=
  dataVar ++ e.dataPath ++ " " ++ e.message

/-- Ajv.errorsText: returns "No errors" for a missing or empty error list,
else maps every error to its message and concatenates with reduce without
an initial accumulator (so the first message seeds the accumulator and
every later message brings one trailing separator with it). -/
def errorsText (errors : Option (List ErrObj)) (separator : String) (dataVar : String) :
    String :=
  match errors with
  | none => "No errors"
  | some [] => "No errors"
  | some (e :: es) =>
      (es.map (fmtError dataVar)).foldl (fun text msg => text ++ msg ++ separator)
        (fmtError dataVar e)

/-- A rule of the registry: a keyword paired with (the identity of) its
definition. -/
structure Rule where
  keyword : String
  defId : Nat

/-- Splice a rule into a list at position i, the model of
rules.splice(i, 0, rule). -/
def spliceAt (i : Nat) (r : Rule) (rules : List Rule) : List Rule :=
  rules.take i ++ r :: rules.drop i

/-- Index of the first list element satisfying the test, the model of
Array.prototype.findIndex (with none for the -1 result). -/
def findIdxF (p : Rule → Bool) : List Rule → Option Nat
  | [] => none
  | r :: rs => if p r then some 0 else (findIdxF p rs).map (· + 1)

/-- addBeforeRule: find the index of the rule whose keyword is the before
hint; when found splice the new rule in right there, otherwise append it
and log a warning (the returned Bool records that a warning was logged). -/
def addBeforeRule (rules : List Rule) (rule : Rule) (before : String) :
    List Rule × Bool :=
  match findIdxF (fun r => r.keyword == before) rules with
  | some i => (spliceAt i rule rules, false)
  | none => (rules ++ [rule], true)

/-- The keyword-name pattern of the source, an anchored regular expression
with the ignore-case flag: first character a letter of either case, an
underscore or a dollar sign; every further character a letter of either
case, a digit, an underscore, a dollar sign or a hyphen. -/
def keywordNameOk (s : String) : Bool :=
  match s.data with
  | [] => false
  | c :: cs =>
      (c.isAlpha || c = '_' || c = '$') &&
        cs.all (fun d => d.isAlphanum || d = '_' || d = '$' || d = '-')

/-- The same pattern read case-sensitively, exactly as the claim's words
state it (lower-case letters only); used to compare the claim against the
code, whose regular expression carries the ignore-case flag. -/
def keywordNameOkCS (s : String) : Bool :=
  match s.data with
  | [] => false
  | c :: cs =>
      (('a' ≤ c ∧ c ≤ 'z') ∨ c = '_' ∨ c = '$') &&
        cs.all (fun d =>
          decide (('a' ≤ d ∧ d ≤ 'z') ∨ ('0' ≤ d ∧ d ≤ '9') ∨ d = '_' ∨ d = '$' ∨ d = '-'))

/-- Errors thrown by checkKeyword for a keyword name. -/
inductive KwErr where
  | alreadyDefined (k : String)
  | invalidName (k : String)

/-- The keyword-name checks of checkKeyword: a name already present in
RULES.keywords is rejected first, then a name failing the pattern test;
any other name passes.  The definition-shape checks of checkKeyword are
orthogonal (the claims assume an otherwise valid definition). -/
def checkKeywordName (registered : List String) (kwd : String) : Except KwErr Unit :=
  if registered.contains kwd then .error (.alreadyDefined kwd)
  else if !keywordNameOk kwd then .error (.invalidName kwd)
  else .ok ()

/-- Whether a checkKeywordName result is success. -/
def kwPassed : Except KwErr Unit → Bool
  | .ok _ => true
  | .error _ => false

/-- Concatenation of a list of messages where every message drags one
trailing copy of the separator behind it; the vocabulary in which the
claim about errorsText states its expected output. -/
def joinWithTrailing (sep : String) : List String → String
  | [] => ""
  | m :: ms => m ++ sep ++ joinWithTrailing sep ms

/-- Property assignment on a JavaScript object: an existing key keeps its
position and gets the new value, a fresh key is appended at the end. -/
def updAssoc {β : Type} (k : String) (v : β) : List (String × β) → List (String × β)
  | [] => [(k, v)]
  | p :: ps => if p.1 = k then (k, v) :: ps else p :: updAssoc k v ps

/-- The constant $data reference attached by schemaOrData. -/
def dataRefJson : Json :=
  .obj [("$ref", .str "https://raw.githubusercontent.com/ajv-validator/ajv/master/lib/refs/data.json#")]

/-- schemaOrData: the two-alternative anyOf of the original keyword schema
and the $data reference. -/
def schemaOrData (schema : Json) : Json :=
  .obj [("anyOf", .arr [schema, dataRefJson])]

/-- One pass of the keyword loop of $dataMetaSchema over the fields of the
pointed-at node: every field whose key is a registered rule with the $data
capability is replaced by its schemaOrData wrapping; rules are given as
key-to-capability pairs mirroring RULES.all with rule.definition.$data. -/
def mapDataRules (rules : List (String × Bool)) : List (String × Json) → List (String × Json)
  | [] => []
  | (k, v) :: fs =>
      (if (alookup k rules).getD false then (k, schemaOrData v) else (k, v)) ::
        mapDataRules rules fs

/-- Apply the keyword loop at a node (only object nodes hold keywords). -/
def applyDataRules (rules : List (String × Bool)) (node : Json) : Json :=
  match node with
  | .obj fs => .obj (mapDataRules rules fs)
  | x => x

mutual
/-- Walk the segments of one JSON pointer down a freshly copied meta-schema
and run the keyword loop at the pointed-at node, as the body of the
$dataMetaSchema loop does; since the copy shares nothing with the
original, the in-place mutation is a functional update of the copy. -/
def updAtPath (rules : List (String × Bool)) : Json → List String → Json
  | node, [] => applyDataRules rules node
  | .obj fs, seg :: rest => .obj (updFields rules fs seg rest)
  | node, _ :: _ => node

/-- Update the field named seg of an object along the remaining pointer
segments. -/
def updFields (rules : List (String × Bool)) :
    List (String × Json) → String → List String → List (String × Json)
  | [], _, _ => []
  | (k, v) :: fs, seg, rest =>
      (if k = seg then (k, updAtPath rules v rest) else (k, v)) :: updFields rules fs seg rest
end

/-- Ajv.$dataMetaSchema over an explicit object store that keeps object
identity observable: the store is a list of object graphs, an address is
an index, allocation appends.  Each loop iteration first deep-copies the
current meta-schema (a fresh address for the transformed copy, exactly the
JSON.parse of JSON.stringify of the source), then navigates and rewrites
the copy; the function returns the final store and the address of the
returned object.  JSON pointers are given pre-split into their segment
lists. -/
def dataMetaSchema (rules : List (String × Bool)) :
    List Json → Nat → List (List String) → List Json × Nat
  | st, a, [] => (st, a)
  | st, a, ptr :: ptrs =>
      dataMetaSchema rules (st ++ [updAtPath rules (st.getD a .null) ptr]) st.length ptrs

/-- State of the pending-load table of compileAsync: loading maps a ref to
the promise created for it (the _loading instance field), inFlight lists
the fetches started and not yet settled with their refs, nextP numbers
promises. -/
structure LoadState where
  loading : List (String × Nat)
  inFlight : List (Nat × String)
  nextP : Nat

/-- Atomic events of the cooperative async schedule: callLoad is the
synchronous prefix of _loadSchema up to its first await (it checks
_loading and either joins the pending promise or invokes loadSchema and
stores the fresh promise, with no suspension point in between); settle is
the promise of a fetch settling, successfully or not, which runs the
finally block that deletes the _loading entry. -/
inductive LoadEvent where
  | callLoad (ref : String)
  | settle (pid : Nat) (success : Bool)

/-- One atomic step of the _loadSchema protocol. -/
def stepLoad (s : LoadState) : LoadEvent → LoadState
  | .callLoad ref =>
      match alookup ref s.loading with
      | some _ => s
      | none =>
          { loading := (ref, s.nextP) :: s.loading,
            inFlight := (s.nextP, ref) :: s.inFlight,
            nextP := s.nextP + 1 }
  | .settle pid _ =>
      match alookup pid s.inFlight with
      | none => s
      | some ref =>
          { loading := s.loading.filter (fun e => !(e.1 == ref)),
            inFlight := s.inFlight.filter (fun e => !(e.1 == pid)),
            nextP := s.nextP }

/-- The empty pending-load table a fresh Ajv instance starts with. -/
def initLoad : LoadState := ⟨[], [], 0⟩

/-- Run a whole schedule of atomic events. -/
def runLoad (evs : List LoadEvent) : LoadState := evs.foldl stepLoad initLoad

/-- The invariant tying _loading to the in-flight fetches: every in-flight
fetch is registered in _loading under its ref with an id below the
allocation counter, every _loading entry belongs to an in-flight fetch,
and both tables are duplicate-free on their keys. -/
def loadInv (s : LoadState) : Prop :=
  (∀ pid ref, (pid, ref) ∈ s.inFlight → alookup ref s.loading = some pid ∧ pid < s.nextP) ∧
  (∀ ref pid, alookup ref s.loading = some pid → (pid, ref) ∈ s.inFlight) ∧
  (s.loading.map Prod.fst).Nodup ∧ (s.inFlight.map Prod.fst).Nodup

/-- A schema environment: the registered schema document, its cache key
(the canonical serialized form), the meta flag, the memoized compiled
validator (modelled by its identity, absent until first compilation) and
the base URI. -/
structure SchemaEnvS where
  schema : Json
  cacheKey : Json
  meta : Bool
  validate : Option Nat
  baseId : String

/-- An entry of the schemas or refs table: a schema environment (by
address into the environment store) or a string indirection to another
key. -/
inductive RefEntry where
  | env (addr : Nat)
  | indir (key : String)

/-- JavaScript truthiness of a table entry: environments are objects and
truthy, a string indirection is falsy exactly when empty. -/
def entryTruthy : RefEntry → Bool
  | .env _ => true
  | .indir s => !(s == "")

/-- The whole mutable state the orchestrator owns: the environment store
(SchemaEnv objects by address), the content-addressed cache from canonical
serialized schema to environment, the schemas and refs tables, and a
counter handing out compiled-validator identities. -/
structure AjvState where
  envs : List SchemaEnvS
  cache : List (Json × Nat)
  schemas : List (String × RefEntry)
  refs : List (String × RefEntry)
  nextV : Nat

/-- Cache lookup by canonical serialized key. -/
def cacheGet (cache : List (Json × Nat)) (key : Json) : Option Nat :=
  match cache with
  | [] => none
  | e :: rest => if jeqb e.1 key then some e.2 else cacheGet rest key

/-- Cache deletion by canonical serialized key. -/
def cacheDel (cache : List (Json × Nat)) (key : Json) : List (Json × Nat) :=
  cache.filter (fun e => !(jeqb e.1 key))

/-- The test !regex || regex.test(keyRef): an absent pattern matches every
key, a present one is its RegExp test predicate. -/
def rxTest (rx : Option (String → Bool)) (key : String) : Bool :=
  match rx with
  | none => true
  | some r => r key

/-- Ajv._removeAllSchemas over one table: every entry whose key matches
the optional pattern is inspected; string indirections are deleted,
non-meta schema environments are deleted together with their cache line,
meta environments survive.  The pattern is modelled as the test predicate
of the RegExp. -/
def removeAllSchemas (envs : List SchemaEnvS) (rx : Option (String → Bool)) :
    List (String × RefEntry) → List (Json × Nat) →
    List (String × RefEntry) × List (Json × Nat)
  | [], cache => ([], cache)
  | (key, entry) :: rest, cache =>
      if rxTest rx key then
        match entry with
        | .indir _ => removeAllSchemas envs rx rest cache
        | .env a =>
            match envs.get? a with
            | some e =>
                if e.meta then
                  let (t, c) := removeAllSchemas envs rx rest cache
                  ((key, entry) :: t, c)
                else removeAllSchemas envs rx rest (cacheDel cache e.cacheKey)
            | none =>
                let (t, c) := removeAllSchemas envs rx rest cache
                ((key, entry) :: t, c)
      else
        let (t, c) := removeAllSchemas envs rx rest cache
        ((key, entry) :: t, c)

/-- Ajv.removeSchema called with undefined: both tables are swept with no
pattern and the cache is cleared. -/
def removeSchemaAll (st : AjvState) : AjvState :=
  let s1 := removeAllSchemas st.envs none st.schemas st.cache
  let r1 := removeAllSchemas st.envs none st.refs s1.2
  { st with schemas := s1.1, refs := r1.1, cache := [] }

/-- Ajv.removeSchema called with a RegExp: both tables are swept with the
pattern's test; matching non-meta entries lose their cache lines. -/
def removeSchemaRegex (st : AjvState) (rx : String → Bool) : AjvState :=
  let s1 := removeAllSchemas st.envs (some rx) st.schemas st.cache
  let r1 := removeAllSchemas st.envs (some rx) st.refs s1.2
  { st with schemas := s1.1, refs := r1.1, cache := r1.2 }

/-- Errors addSchema and compile can throw. -/
inductive AjvErr where
  | schemaIdNotString
  | duplicateId (key : String)
  | invalidSchemaType
  | schemaInvalid
  | implError

/-- The options and collaborators the modelled operations consult:
msValid is the outcome of validating a schema against its meta-schema
(the this.validateSchema call, whose own compilation pipeline is outside
these claims), validateOpt is opts.validateSchema, addUsedSchema is
opts.addUsedSchema. -/
structure AjvCtx where
  msValid : Json → Bool
  validateOpt : Bool
  addUsedSchema : Bool

/-- JavaScript typeof x === object for our values (arrays and null have
typeof object). -/
def jsTypeofObject : Json → Bool
  | .obj _ => true
  | .arr _ => true
  | .null => true
  | _ => false

/-- The schema type check of _addSchema: typeof must be object or
boolean. -/
def jsTypeofObjectOrBool : Json → Bool
  | .bool _ => true
  | s => jsTypeofObject s

/-- The $id member of a schema document, when present. -/
def schemaIdOf (schema : Json) : Option Json :=
  match schema with
  | .obj fs => alookup "$id" fs
  | _ => none

/-- Modelled from the spec: normalizeId of the URI utilities (code outside
the given source files). A missing id normalizes to the empty string; a
trailing empty fragment, with or without a slash, is stripped. -/
def normalizeId : Option String → String
  | none => ""
  | some id =>
      if id.endsWith "#/" then id.dropRight 2
      else if id.endsWith "#" then id.dropRight 1
      else id

/-- The id string addSchema computes before normalization, for stating
results: the $id member when the schema is an object carrying a string
there. -/
def jsIdOf (schema : Json) : Option String :=
  match schemaIdOf schema with
  | some (.str s) => some s
  | _ => none

/-- Ajv._checkUnique as a test: the key is taken when either table holds a
truthy entry under it. -/
def checkUniqueB (st : AjvState) (id : String) : Bool :=
  ((alookup id st.schemas).map entryTruthy).getD false ||
    ((alookup id st.refs).map entryTruthy).getD false

/-- Ajv._addSchema: non-object non-boolean schemas are rejected; the cache
is consulted under the serialized schema and a hit returns the existing
environment unchanged (the dedup); on a miss a fresh environment is built
and cached, registered in refs under its base id when addSchema is set and
the id is not a plain fragment (a nonempty id must be unique), and the
schema is validated against its meta-schema when requested.  The mutated
state is returned alongside the thrown error or the environment address.
Building of localRefs and the compilation machinery behind validateSchema
are outside these claims. -/
def _addSchema (ctx : AjvCtx) (st : AjvState) (schema : Json) (meta : Bool)
    (validateSchemaFlag : Bool) (addSchemaFlag : Bool) :
    AjvState × Except AjvErr Nat :=
  if !jsTypeofObjectOrBool schema then (st, .error .invalidSchemaType) else
  let ck := canon schema
  match cacheGet st.cache ck with
  | some addr => (st, .ok addr)
  | none =>
      let baseId := normalizeId (jsIdOf schema)
      let addr := st.envs.length
      let env : SchemaEnvS := ⟨schema, ck, meta, none, baseId⟩
      let st1 := { st with envs := st.envs ++ [env], cache := (ck, addr) :: st.cache }
      if addSchemaFlag && !(baseId.startsWith "#") then
        if !(baseId == "") && checkUniqueB st1 baseId then (st1, .error (.duplicateId baseId))
        else
          let st2 := { st1 with refs := updAssoc baseId (.env addr) st1.refs }
          if validateSchemaFlag && !(ctx.msValid schema) then (st2, .error .schemaInvalid)
          else (st2, .ok addr)
      else
        if validateSchemaFlag && !(ctx.msValid schema) then (st1, .error .schemaInvalid)
        else (st1, .ok addr)

/-- Modelled from the spec: compileSchema and _compileSchemaEnv (the
compiler behind them is outside the given source files).  The compiled
validator is memoized on the schema environment on first use and is
immutable once set; compilation itself is modelled as always succeeding
with a fresh validator identity. -/
def compileSchemaEnvModel (st : AjvState) (addr : Nat) : AjvState × Except AjvErr Nat :=
  match st.envs.get? addr with
  | none => (st, .error .implError)
  | some env =>
      match env.validate with
      | some v => (st, .ok v)
      | none =>
          let v := st.nextV
          let env1 := { env with validate := some v }
          ({ st with envs := st.envs.set addr env1, nextV := st.nextV + 1 }, .ok v)

/-- Ajv.compile: register the schema if not present (via _addSchema under
the instance options) and return the memoized validator, compiling it on
first use. -/
def compileFn (ctx : AjvCtx) (st : AjvState) (schema : Json) (meta : Bool) :
    AjvState × Except AjvErr Nat :=
  match _addSchema ctx st schema meta ctx.validateOpt ctx.addUsedSchema with
  | (st1, .error e) => (st1, .error e)
  | (st1, .ok addr) =>
      match (st1.envs.get? addr).bind (fun e => e.validate) with
      | some v => (st1, .ok v)
      | none => compileSchemaEnvModel st1 addr

/-- The single-schema body of Ajv.addSchema after the $id extraction: the
key is the caller key when JavaScript-truthy, else the id, normalized; it
must not already be taken; then the schema goes through _addSchema with
addSchema set and lands in the schemas table under the key. -/
def addSchemaBody (ctx : AjvCtx) (st : AjvState) (schema : Json) (key : Option String)
    (id : Option String) (meta : Bool) (valSch : Bool) : AjvState × Except AjvErr Unit :=
  let k := normalizeId (match key with
    | some s => if s == "" then id else some s
    | none => id)
  if checkUniqueB st k then (st, .error (.duplicateId k))
  else
    match _addSchema ctx st schema meta valSch true with
    | (st1, .error e) => (st1, .error e)
    | (st1, .ok addr) => ({ st1 with schemas := updAssoc k (.env addr) st1.schemas }, .ok ())

/-- Ajv.addSchema for a non-array schema: reject a non-string $id, then
run the body. -/
def addSchemaOne (ctx : AjvCtx) (st : AjvState) (schema : Json) (key : Option String)
    (meta : Bool) (valSch : Bool) : AjvState × Except AjvErr Unit :=
  match (if jsTypeofObject schema then schemaIdOf schema else none) with
  | some j =>
      match j with
      | .str idStr => addSchemaBody ctx st schema key (some idStr) meta valSch
      | _ => (st, .error .schemaIdNotString)
  | none => addSchemaBody ctx st schema key none meta valSch

mutual
/-- Ajv.addSchema: an array of schemas is added one by one, each with no
key (an exception aborts the rest); a single schema goes through the body
with the instance validateSchema option. -/
def addSchemaFn (ctx : AjvCtx) (st : AjvState) (schema : Json) (key : Option String)
    (meta : Bool) : AjvState × Except AjvErr Unit :=
  match schema with
  | .arr items => addSchemaList ctx st items meta
  | s => addSchemaOne ctx st s key meta ctx.validateOpt

/-- Recursive addSchema over the members of a schema array. -/
def addSchemaList (ctx : AjvCtx) (st : AjvState) : List Json → Bool →
    AjvState × Except AjvErr Unit
  | [], _ => (st, .ok ())
  | s :: rest, meta =>
      match addSchemaFn ctx st s none meta with
      | (st1, .error e) => (st1, .error e)
      | (st1, .ok _) => addSchemaList ctx st1 rest meta
end

/-- The type keyword test for number. -/
def isNumber : Json → Bool
  | .num _ => true
  | _ => false

/-- Read a property of a data object. -/
def getProp (data : Json) (k : String) : Option Json :=
  match data with
  | .obj fs => alookup k fs
  | _ => none

/-- Assign a property of a data object (non-objects are unchanged, as the
properties keyword only runs on object data). -/
def setProp (data : Json) (k : String) (v : Json) : Json :=
  match data with
  | .obj fs => .obj (updAssoc k v fs)
  | x => x

/-- The compiled properties keyword for the schema holding the single
declared property x with an optional default and the type number
subschema.  The branch structure is properties.code: when a default is
applicable (useDefaults on, not inside a composite rule, a default
declared) the property subschema is applied unconditionally; otherwise it
is applied only when the property is present on the data, and an absent
property is valid.  The subschema application is modelled from the spec:
injection of the default into missing data precedes validation, so the
injected default is itself validated by the type keyword; the validator
returns its verdict together with the possibly mutated data. -/
def propValidateX (useDefaults compositeRule : Bool) (dflt : Option Json) (data : Json) :
    Bool × Json :=
  if useDefaults && !compositeRule && dflt.isSome then
    let data1 :=
      if (getProp data "x").isNone then setProp data "x" (dflt.getD .null) else data
    (match getProp data1 "x" with
     | some v => isNumber v
     | none => true, data1)
  else
    match getProp data "x" with
    | some v => (isNumber v, data)
    | none => (true, data)

-- ===== THEOREMS =====

/-- Folding the reduce step over a message list appends every message with
one trailing separator behind the accumulator. -/
theorem foldl_join_trailing (sep : String) :
    ∀ (l : List String) (acc : String),
      l.foldl (fun text msg => text ++ msg ++ sep) acc = acc ++ joinWithTrailing sep l := by
  intro l
  induction l with
  | nil => intro acc; simp [joinWithTrailing]
  | cons m ms ih =>
      intro acc
      rw [List.foldl_cons, ih]
      simp only [joinWithTrailing]
      simp [String.append_assoc]

/-- C10: for two or more errors, errorsText returns the first message, then
each further message preceded by nothing and followed by one separator: no
separator between the first and second messages, one trailing separator
after the last. -/
theorem C10_errorsText_concat (e1 e2 : ErrObj) (es : List ErrObj) (sep dv : String) :
    errorsText (some (e1 :: e2 :: es)) sep dv =
      fmtError dv e1 ++ joinWithTrailing sep ((e2 :: es).map (fmtError dv)) := by
  simp only [errorsText, foldl_join_trailing]

/-- A found index points at an element satisfying the test. -/
theorem findIdxF_some (p : Rule → Bool) :
    ∀ (l : List Rule) (i : Nat), findIdxF p l = some i →
      ∃ r, l.get? i = some r ∧ p r = true := by
  intro l
  induction l with
  | nil => intro i h; simp [findIdxF] at h
  | cons x xs ih =>
      intro i h
      simp only [findIdxF] at h
      by_cases hp : p x
      · simp [hp] at h
        subst h
        exact ⟨x, rfl, hp⟩
      · simp [hp] at h
        obtain ⟨j, hj, rfl⟩ := h
        obtain ⟨r, hr, hpr⟩ := ih j hj
        exact ⟨r, by simpa using hr, hpr⟩

/-- A found index is within bounds. -/
theorem findIdxF_some_lt (p : Rule → Bool) (l : List Rule) (i : Nat)
    (h : findIdxF p l = some i) : i < l.length := by
  obtain ⟨r, hr, _⟩ := findIdxF_some p l i h
  exact List.get?_eq_some.mp hr |>.1

/-- Splicing at i puts the new element at position i. -/
theorem spliceAt_get_self (r : Rule) :
    ∀ (l : List Rule) (i : Nat), i ≤ l.length → (spliceAt i r l).get? i = some r := by
  intro l
  induction l with
  | nil =>
      intro i h
      cases i with
      | zero => simp [spliceAt]
      | succ j => simp at h
  | cons x xs ih =>
      intro i h
      cases i with
      | zero => simp [spliceAt]
      | succ j =>
          have : (spliceAt (j + 1) r (x :: xs)) = x :: spliceAt j r xs := by
            simp [spliceAt]
          rw [this]
          simpa using ih j (by simpa using h)

/-- Splicing at i pushes the former occupant of position i to position
i + 1. -/
theorem spliceAt_get_succ (r : Rule) :
    ∀ (l : List Rule) (i : Nat), (spliceAt i r l).get? (i + 1) = l.get? i := by
  intro l
  induction l with
  | nil =>
      intro i
      simp [spliceAt]
  | cons x xs ih =>
      intro i
      cases i with
      | zero => simp [spliceAt]
      | succ j =>
          have : (spliceAt (j + 1) r (x :: xs)) = x :: spliceAt j r xs := by
            simp [spliceAt]
          rw [this]
          simpa using ih j

/-- C9: a rule added with a before hint lands immediately ahead of the
first rule carrying the hinted keyword, at that rule's former index, with
no warning; when no rule carries the hinted keyword the new rule is
appended at the end and a warning is logged. -/
theorem C9_addBeforeRule_spec (rules : List Rule) (rule : Rule) (before : String) :
    (∀ i, findIdxF (fun r => r.keyword == before) rules = some i →
      addBeforeRule rules rule before = (spliceAt i rule rules, false) ∧
      (∃ tgt, rules.get? i = some tgt ∧ tgt.keyword = before) ∧
      (spliceAt i rule rules).get? i = some rule ∧
      (spliceAt i rule rules).get? (i + 1) = rules.get? i) ∧
    (findIdxF (fun r => r.keyword == before) rules = none →
      addBeforeRule rules rule before = (rules ++ [rule], true)) := by
  constructor
  · intro i h
    refine ⟨by simp [addBeforeRule, h], ?_, ?_, spliceAt_get_succ rule rules i⟩
    · obtain ⟨r, hr, hpr⟩ := findIdxF_some _ rules i h
      exact ⟨r, hr, by simpa using hpr⟩
    · exact spliceAt_get_self rule rules i (Nat.le_of_lt (findIdxF_some_lt _ rules i h))
  · intro h
    simp [addBeforeRule, h]

/-- C9 witness at a concrete rule list: inserting before the rule named
maximum lands ahead of it; inserting before an unknown keyword appends
with a warning. -/
theorem C9_addBeforeRule_spec_witness :
    addBeforeRule [⟨"minimum", 0⟩, ⟨"maximum", 1⟩] ⟨"exclusiveMaximum", 2⟩ "maximum" =
      ([⟨"minimum", 0⟩, ⟨"exclusiveMaximum", 2⟩, ⟨"maximum", 1⟩], false) := by
  have h := (C9_addBeforeRule_spec [⟨"minimum", 0⟩, ⟨"maximum", 1⟩] ⟨"exclusiveMaximum", 2⟩
    "maximum").1 1 (by simp [findIdxF])
  simpa [spliceAt] using h.1

/-- C8 counterexample: the keyword name A is fresh and fails the claim's
case-sensitive pattern, so by the claim addKeyword must reject it; the
code's pattern test carries the ignore-case flag and accepts it. -/
theorem C8_keyword_case_counterexample :
    kwPassed (checkKeywordName [] "A") = true ∧
      ([] : List String).contains "A" = false ∧ keywordNameOkCS "A" = false := by
  refine ⟨by decide, by decide, by decide⟩

/-- C8 amended: addKeyword's name check fails iff the name is already
registered or fails the case-insensitive pattern (letters of either case
allowed in every position); every fresh name matching the case-insensitive
pattern passes. -/
theorem C8_addKeyword_name_check (registered : List String) (kwd : String) :
    kwPassed (checkKeywordName registered kwd) = false ↔
      (kwd ∈ registered ∨ keywordNameOk kwd = false) := by
  by_cases h1 : kwd ∈ registered
  · simp [checkKeywordName, h1, kwPassed]
  · by_cases h2 : keywordNameOk kwd <;> simp [checkKeywordName, h1, h2, kwPassed]


/-- A successful lookup exposes a list member. -/
theorem alookup_some_mem {α β : Type} [DecidableEq α] (k : α) (v : β) :
    ∀ l : List (α × β), alookup k l = some v → (k, v) ∈ l := by
  intro l
  induction l with
  | nil => intro h; simp [alookup] at h
  | cons p ps ih =>
      intro h
      obtain ⟨a, b⟩ := p
      simp only [alookup] at h
      by_cases hk : a = k
      · rw [if_pos hk] at h
        injection h with h
        subst hk; subst h
        exact List.mem_cons_self _ _
      · rw [if_neg hk] at h
        exact List.mem_cons_of_mem _ (ih h)

/-- A lookup misses exactly when the key is absent. -/
theorem alookup_eq_none_iff {α β : Type} [DecidableEq α] (k : α) :
    ∀ l : List (α × β), alookup k l = none ↔ k ∉ l.map Prod.fst := by
  intro l
  induction l with
  | nil => simp [alookup]
  | cons p ps ih =>
      obtain ⟨a, b⟩ := p
      by_cases hk : a = k
      · subst hk
        simp [alookup]
      · simp [alookup, hk, ih, Ne.symm hk]

/-- A lookup hits exactly when the key is present. -/
theorem alookup_isSome_iff {α β : Type} [DecidableEq α] (k : α) (l : List (α × β)) :
    (alookup k l).isSome = true ↔ k ∈ l.map Prod.fst := by
  rcases h : alookup k l with _ | v
  · simpa [h] using (alookup_eq_none_iff k l).mp h
  · simp only [Option.isSome_some, true_iff]
    obtain ⟨p, hp, rfl⟩ : ∃ p ∈ l, p.1 = k := by
      have := alookup_some_mem k v l h
      exact ⟨(k, v), this, rfl⟩
    exact List.mem_map_of_mem Prod.fst hp

/-- Filtering out a key makes its lookup miss. -/
theorem alookup_filter_self {α β : Type} [DecidableEq α] [BEq α] [LawfulBEq α] (k : α) :
    ∀ l : List (α × β), alookup k (l.filter (fun e => !(e.1 == k))) = none := by
  intro l
  induction l with
  | nil => simp [alookup]
  | cons p ps ih =>
      by_cases hk : p.1 = k
      · simpa [List.filter, hk] using ih
      · have : (p.1 == k) = false := beq_false_of_ne hk
        simpa [List.filter, this, alookup, hk] using ih

/-- Filtering out another key leaves a lookup unchanged. -/
theorem alookup_filter_ne {α β : Type} [DecidableEq α] [BEq α] [LawfulBEq α]
    (k k' : α) (hne : k' ≠ k) :
    ∀ l : List (α × β), alookup k' (l.filter (fun e => !(e.1 == k))) = alookup k' l := by
  intro l
  induction l with
  | nil => simp
  | cons p ps ih =>
      by_cases hk : p.1 = k
      · have hbeq : (!(p.1 == k)) = false := by simp [hk]
        rw [List.filter_cons, hbeq]
        simp only [alookup]
        rw [if_neg (fun hh => hne ((hk.symm.trans hh).symm))]
        exact ih
      · have hbeq : (!(p.1 == k)) = true := by simp [hk]
        rw [List.filter_cons, hbeq]
        simp only [if_true, alookup]
        by_cases hk2 : p.1 = k'
        · rw [if_pos hk2, if_pos hk2]
        · rw [if_neg hk2, if_neg hk2]
          exact ih

/-- A member's key is among the mapped keys. -/
theorem mem_keys_of_mem {α β : Type} {k : α} {v : β} {l : List (α × β)}
    (h : (k, v) ∈ l) : k ∈ l.map Prod.fst :=
  List.mem_map_of_mem Prod.fst h

/-- In a list with duplicate-free keys, a key determines its value. -/
theorem nodup_keys_unique {α β : Type} {k : α} {a b : β} :
    ∀ {l : List (α × β)}, (l.map Prod.fst).Nodup → (k, a) ∈ l → (k, b) ∈ l → a = b := by
  intro l
  induction l with
  | nil => intro _ h; simp at h
  | cons p ps ih =>
      intro hnd h1 h2
      simp only [List.map_cons, List.nodup_cons] at hnd
      rcases List.mem_cons.mp h1 with h1 | h1
      · rcases List.mem_cons.mp h2 with h2 | h2
        · rw [← h1] at h2
          injection h2 with h h'
          exact h'.symm
        · exfalso
          exact hnd.1 (by rw [← h1] at hnd ⊢; exact mem_keys_of_mem h2)
      · rcases List.mem_cons.mp h2 with h2 | h2
        · exfalso
          exact hnd.1 (by rw [← h2] at hnd ⊢; exact mem_keys_of_mem h1)
        · exact ih hnd.2 h1 h2

/-- Assignment makes the assigned key's lookup hit the new value. -/
theorem alookup_updAssoc_self {β : Type} (k : String) (v : β) :
    ∀ l : List (String × β), alookup k (updAssoc k v l) = some v := by
  intro l
  induction l with
  | nil => simp [updAssoc, alookup]
  | cons p ps ih =>
      by_cases hk : p.1 = k
      · simp [updAssoc, hk, alookup]
      · simp only [updAssoc]
        rw [if_neg hk]
        simpa [alookup, hk] using ih

/-- Assignment leaves other keys' lookups unchanged. -/
theorem alookup_updAssoc_ne {β : Type} (k k' : String) (v : β) (hne : k' ≠ k) :
    ∀ l : List (String × β), alookup k' (updAssoc k v l) = alookup k' l := by
  intro l
  induction l with
  | nil => simp [updAssoc, alookup, Ne.symm hne]
  | cons p ps ih =>
      by_cases hk : p.1 = k
      · simp [updAssoc, hk, alookup, Ne.symm hne, hk ▸ (Ne.symm hne : k ≠ k')]
      · simp only [updAssoc]
        rw [if_neg hk]
        by_cases hk2 : p.1 = k'
        · simp [alookup, hk2]
        · simpa [alookup, hk2] using ih

/-- Filtering preserves duplicate-freedom of the keys. -/
theorem nodup_keys_filter {α β : Type} (p : α × β → Bool) {l : List (α × β)}
    (h : (l.map Prod.fst).Nodup) : ((l.filter p).map Prod.fst).Nodup :=
  List.Nodup.sublist ((List.filter_sublist l).map Prod.fst) h

/-- The store only grows along dataMetaSchema, so every pre-existing
object, the input meta-schema included, is structurally unchanged. -/
theorem dataMetaSchema_store_stable (rules : List (String × Bool)) :
    ∀ (ptrs : List (List String)) (st : List Json) (a i : Nat), i < st.length →
      ((dataMetaSchema rules st a ptrs).1).get? i = st.get? i := by
  intro ptrs
  induction ptrs with
  | nil => intro st a i _; rfl
  | cons ptr rest ih =>
      intro st a i hi
      have hlen : i < (st ++ [updAtPath rules (st.getD a .null) ptr]).length := by
        simp only [List.length_append, List.length_cons, List.length_nil]
        omega
      calc ((dataMetaSchema rules st a (ptr :: rest)).1).get? i
          = (st ++ [updAtPath rules (st.getD a .null) ptr]).get? i := ih _ _ i hlen
        _ = st.get? i := List.get?_append hi

/-- With at least one pointer the returned address is a fresh allocation,
at or beyond the former end of the store. -/
theorem dataMetaSchema_fresh_addr (rules : List (String × Bool)) :
    ∀ (rest : List (List String)) (ptr : List String) (st : List Json) (a : Nat),
      st.length ≤ (dataMetaSchema rules st a (ptr :: rest)).2 := by
  intro rest
  induction rest with
  | nil => intro ptr st a; exact Nat.le_refl _
  | cons p ps ih =>
      intro ptr st a
      have h := ih p (st ++ [updAtPath rules (st.getD a .null) ptr]) st.length
      have hlen : st.length ≤ (st ++ [updAtPath rules (st.getD a .null) ptr]).length := by
        simp [List.length_append]
      exact Nat.le_trans hlen h

/-- C7 counterexample: with the empty pointer list, $dataMetaSchema
returns its argument itself (the same address, no copy), so the result is
not a new object distinct from the argument. -/
theorem C7_dataMetaSchema_empty_counterexample :
    dataMetaSchema [("maximum", true)] [Json.obj [("properties", Json.obj [])]] 0 [] =
      ([Json.obj [("properties", Json.obj [])]], 0) := rfl

/-- C7 amended: $dataMetaSchema never mutates its argument (every object
already in the store, the input meta-schema included, is unchanged after
the call), and whenever the pointer list is non-empty the returned object
is a fresh copy distinct from the argument; for the empty pointer list the
argument itself is returned. -/
theorem C7_dataMetaSchema_no_mutation (rules : List (String × Bool)) (st : List Json)
    (a : Nat) (ptrs : List (List String)) :
    (∀ i, i < st.length → ((dataMetaSchema rules st a ptrs).1).get? i = st.get? i) ∧
    (ptrs ≠ [] → a < st.length →
      (dataMetaSchema rules st a ptrs).2 ≠ a ∧
        st.length ≤ (dataMetaSchema rules st a ptrs).2) := by
  constructor
  · intro i hi
    exact dataMetaSchema_store_stable rules ptrs st a i hi
  · intro hne ha
    match ptrs, hne with
    | ptr :: rest, _ =>
        have h := dataMetaSchema_fresh_addr rules rest ptr st a
        exact ⟨fun hc => by omega, h⟩

/-- C7 witness: on a one-object store with one pointer, the stored input
object is untouched and the returned address is fresh. -/
theorem C7_dataMetaSchema_no_mutation_witness :
    ((dataMetaSchema [("maximum", true)] [Json.null] 0 [["properties"]]).1).get? 0 =
      some Json.null ∧
      (dataMetaSchema [("maximum", true)] [Json.null] 0 [["properties"]]).2 ≠ 0 := by
  have h := C7_dataMetaSchema_no_mutation [("maximum", true)] [Json.null] 0 [["properties"]]
  refine ⟨?_, (h.2 (by simp) (by simp)).1⟩
  rw [h.1 0 (by simp)]
  rfl

/-- With duplicate-free keys, membership determines the lookup. -/
theorem alookup_of_mem_nodup {α β : Type} [DecidableEq α] {k : α} {v : β} :
    ∀ {l : List (α × β)}, (l.map Prod.fst).Nodup → (k, v) ∈ l → alookup k l = some v := by
  intro l
  induction l with
  | nil => intro _ h; simp at h
  | cons p ps ih =>
      intro hnd hmem
      simp only [List.map_cons, List.nodup_cons] at hnd
      rcases List.mem_cons.mp hmem with hmem | hmem
      · rw [← hmem]
        simp [alookup]
      · have hk : p.1 ≠ k := by
          intro hk
          exact hnd.1 (hk ▸ mem_keys_of_mem hmem)
        simp only [alookup]
        rw [if_neg hk]
        exact ih hnd.2 hmem

/-- The initial pending-load table satisfies the invariant. -/
theorem loadInv_init : loadInv initLoad := by
  refine ⟨?_, ?_, ?_, ?_⟩ <;> simp [initLoad, alookup]

/-- Every atomic step of the _loadSchema protocol preserves the
invariant. -/
theorem loadInv_step (s : LoadState) (e : LoadEvent) (h : loadInv s) :
    loadInv (stepLoad s e) := by
  obtain ⟨h1, h2, h3, h4⟩ := h
  cases e with
  | callLoad ref =>
      rcases hl : alookup ref s.loading with _ | pid
      · simp only [stepLoad, hl]
        refine ⟨?_, ?_, ?_, ?_⟩
        · intro pid' ref' hmem
          rcases List.mem_cons.mp hmem with hmem | hmem
          · injection hmem with e1 e2
            subst e1; subst e2
            simp [alookup]
          · have hold := h1 pid' ref' hmem
            have hne : ref' ≠ ref := by
              intro hc
              rw [hc, hl] at hold
              exact Option.noConfusion hold.1
            simp only [alookup]
            rw [if_neg (fun hc => hne hc.symm)]
            exact ⟨hold.1, Nat.lt_succ_of_lt hold.2⟩
        · intro ref' pid' hlk
          simp only [alookup] at hlk
          by_cases hr : ref = ref'
          · rw [if_pos hr] at hlk
            injection hlk with hlk
            subst hlk
            subst hr
            show (s.nextP, ref) ∈ (s.nextP, ref) :: s.inFlight
            exact List.mem_cons_self _ _
          · rw [if_neg hr] at hlk
            exact List.mem_cons_of_mem _ (h2 ref' pid' hlk)
        · simp only [List.map_cons, List.nodup_cons]
          exact ⟨(alookup_eq_none_iff ref s.loading).mp hl, h3⟩
        · simp only [List.map_cons, List.nodup_cons]
          refine ⟨?_, h4⟩
          intro hc
          obtain ⟨q, hq, hq1⟩ := List.mem_map.mp hc
          obtain ⟨qa, qb⟩ := q
          have := (h1 qa qb hq).2
          simp only at hq1
          omega
      · simp only [stepLoad, hl]
        exact ⟨h1, h2, h3, h4⟩
  | settle pid ok =>
      rcases hp : alookup pid s.inFlight with _ | ref
      · simp only [stepLoad, hp]
        exact ⟨h1, h2, h3, h4⟩
      · have hpm : (pid, ref) ∈ s.inFlight := alookup_some_mem pid ref s.inFlight hp
        simp only [stepLoad, hp]
        refine ⟨?_, ?_, ?_, ?_⟩
        · intro pid' ref' hmem
          have hmem' := List.mem_filter.mp hmem
          have hne : pid' ≠ pid := by
            intro hc
            simp [hc] at hmem'
          have hold := h1 pid' ref' hmem'.1
          have hrne : ref' ≠ ref := by
            intro hc
            subst hc
            have := h1 pid ref' hpm
            rw [hold.1] at this
            exact hne (Option.some.inj this.1)
          rw [alookup_filter_ne ref ref' hrne s.loading]
          exact hold
        · intro ref' pid' hlk
          have hmem := alookup_some_mem ref' pid' _ hlk
          have hmem' := List.mem_filter.mp hmem
          have hrne : ref' ≠ ref := by
            intro hc
            simp [hc] at hmem'
          have hlk0 : alookup ref' s.loading = some pid' :=
            alookup_of_mem_nodup h3 hmem'.1
          have hin := h2 ref' pid' hlk0
          refine List.mem_filter.mpr ⟨hin, ?_⟩
          have hne : pid' ≠ pid := by
            intro hc
            subst hc
            exact hrne (nodup_keys_unique h4 hin hpm)
          simpa using hne
        · exact nodup_keys_filter _ h3
        · exact nodup_keys_filter _ h4

/-- The invariant holds after any schedule run from an invariant state. -/
theorem loadInv_run_from :
    ∀ (evs : List LoadEvent) (s : LoadState), loadInv s → loadInv (evs.foldl stepLoad s) := by
  intro evs
  induction evs with
  | nil => intro s hs; exact hs
  | cons e rest ih =>
      intro s hs
      exact ih _ (loadInv_step s e hs)

/-- C5: in every reachable state of the cooperative compileAsync schedule
the pending-load invariant holds; under it two in-flight fetches for the
same ref coincide, so at most one fetch per ref is in flight; a call for a
ref whose _loading entry is pending joins the stored promise and leaves
the state untouched (loadSchema is not invoked again); and settling a
fetch, whether it succeeded or failed, removes the _loading entry of its
ref and leaves no fetch for that ref in flight. -/
theorem C5_loading_single_flight :
    (∀ evs, loadInv (runLoad evs)) ∧
    (∀ s, loadInv s → ∀ pid pid' ref,
      (pid, ref) ∈ s.inFlight → (pid', ref) ∈ s.inFlight → pid = pid') ∧
    (∀ s ref, loadInv s → (alookup ref s.loading).isSome →
      stepLoad s (.callLoad ref) = s) ∧
    (∀ s pid ref ok, loadInv s → alookup pid s.inFlight = some ref →
      alookup ref (stepLoad s (.settle pid ok)).loading = none ∧
      ∀ pid', (pid', ref) ∉ (stepLoad s (.settle pid ok)).inFlight) := by
  refine ⟨?_, ?_, ?_, ?_⟩
  · intro evs
    exact loadInv_run_from evs initLoad loadInv_init
  · intro s hs pid pid' ref hm hm'
    have e1 := (hs.1 pid ref hm).1
    have e2 := (hs.1 pid' ref hm').1
    rw [e1] at e2
    exact Option.some.inj e2
  · intro s ref _ hsome
    rcases hl : alookup ref s.loading with _ | pid
    · rw [hl] at hsome
      simp at hsome
    · simp [stepLoad, hl]
  · intro s pid ref ok hs hp
    have hpm : (pid, ref) ∈ s.inFlight := alookup_some_mem pid ref s.inFlight hp
    constructor
    · simp only [stepLoad, hp]
      exact alookup_filter_self ref s.loading
    · intro pid' hc
      simp only [stepLoad, hp] at hc
      have hc' := List.mem_filter.mp hc
      have e1 := (hs.1 pid' ref hc'.1).1
      have e2 := (hs.1 pid ref hpm).1
      rw [e1] at e2
      have : pid' = pid := Option.some.inj e2
      simp [this] at hc'

/-- C5 witness: after one call creates the fetch for ref a, a second call
for a joins the pending promise and changes nothing. -/
theorem C5_loading_single_flight_witness :
    stepLoad (runLoad [LoadEvent.callLoad "a"]) (LoadEvent.callLoad "a") =
      runLoad [LoadEvent.callLoad "a"] :=
  C5_loading_single_flight.2.2.1 (runLoad [LoadEvent.callLoad "a"]) "a"
    (C5_loading_single_flight.1 [LoadEvent.callLoad "a"])
    (by simp [runLoad, initLoad, stepLoad, alookup])

/-- Sweep step: a key failing the pattern is kept untouched. -/
theorem removeAll_step_nomatch (envs : List SchemaEnvS) (rx : Option (String → Bool))
    (key : String) (entry : RefEntry) (rest : List (String × RefEntry))
    (cache : List (Json × Nat)) (hrx : rxTest rx key = false) :
    removeAllSchemas envs rx ((key, entry) :: rest) cache =
      ((key, entry) :: (removeAllSchemas envs rx rest cache).1,
        (removeAllSchemas envs rx rest cache).2) := by
  rcases hres : removeAllSchemas envs rx rest cache with ⟨t, c⟩
  simp [removeAllSchemas, hrx, hres]

/-- Sweep step: a matching string indirection is dropped. -/
theorem removeAll_step_indir (envs : List SchemaEnvS) (rx : Option (String → Bool))
    (key s : String) (rest : List (String × RefEntry)) (cache : List (Json × Nat))
    (hrx : rxTest rx key = true) :
    removeAllSchemas envs rx ((key, RefEntry.indir s) :: rest) cache =
      removeAllSchemas envs rx rest cache := by
  simp [removeAllSchemas, hrx]

/-- Sweep step: a matching meta environment is kept. -/
theorem removeAll_step_meta (envs : List SchemaEnvS) (rx : Option (String → Bool))
    (key : String) (a : Nat) (e : SchemaEnvS) (rest : List (String × RefEntry))
    (cache : List (Json × Nat)) (hrx : rxTest rx key = true)
    (hget : envs.get? a = some e) (hmeta : e.meta = true) :
    removeAllSchemas envs rx ((key, RefEntry.env a) :: rest) cache =
      ((key, RefEntry.env a) :: (removeAllSchemas envs rx rest cache).1,
        (removeAllSchemas envs rx rest cache).2) := by
  have hget2 : envs[a]? = some e := by rw [← List.get?_eq_getElem?]; exact hget
  rcases hres : removeAllSchemas envs rx rest cache with ⟨t, c⟩
  simp [removeAllSchemas, hrx, hget2, hmeta, hres]

/-- Sweep step: a matching non-meta environment is dropped and its cache
line deleted. -/
theorem removeAll_step_nonmeta (envs : List SchemaEnvS) (rx : Option (String → Bool))
    (key : String) (a : Nat) (e : SchemaEnvS) (rest : List (String × RefEntry))
    (cache : List (Json × Nat)) (hrx : rxTest rx key = true)
    (hget : envs.get? a = some e) (hmeta : e.meta = false) :
    removeAllSchemas envs rx ((key, RefEntry.env a) :: rest) cache =
      removeAllSchemas envs rx rest (cacheDel cache e.cacheKey) := by
  have hget2 : envs[a]? = some e := by rw [← List.get?_eq_getElem?]; exact hget
  simp [removeAllSchemas, hrx, hget2, hmeta]

/-- Sweep step: an entry pointing at no stored environment is kept (its
value is not a truthy non-meta environment). -/
theorem removeAll_step_dangling (envs : List SchemaEnvS) (rx : Option (String → Bool))
    (key : String) (a : Nat) (rest : List (String × RefEntry))
    (cache : List (Json × Nat)) (hrx : rxTest rx key = true)
    (hget : envs.get? a = none) :
    removeAllSchemas envs rx ((key, RefEntry.env a) :: rest) cache =
      ((key, RefEntry.env a) :: (removeAllSchemas envs rx rest cache).1,
        (removeAllSchemas envs rx rest cache).2) := by
  have hget2 : envs[a]? = none := by rw [← List.get?_eq_getElem?]; exact hget
  rcases hres : removeAllSchemas envs rx rest cache with ⟨t, c⟩
  simp [removeAllSchemas, hrx, hget2, hres]

/-- The sweep keeps every meta environment entry. -/
theorem removeAll_keeps_meta (envs : List SchemaEnvS) (rx : Option (String → Bool))
    {k : String} {a : Nat} {e : SchemaEnvS}
    (hget : envs.get? a = some e) (hmeta : e.meta = true) :
    ∀ (tbl : List (String × RefEntry)) (cache : List (Json × Nat)),
      (k, RefEntry.env a) ∈ tbl →
      (k, RefEntry.env a) ∈ (removeAllSchemas envs rx tbl cache).1 := by
  intro tbl
  induction tbl with
  | nil => intro cache h; simp at h
  | cons p rest ih =>
      obtain ⟨key, entry⟩ := p
      intro cache hmem
      by_cases hrx : rxTest rx key = true
      · rcases List.mem_cons.mp hmem with hh | ht
        · injection hh with h1 h2
          subst h1
          rw [← h2]
          rw [removeAll_step_meta envs rx k a e rest cache hrx hget hmeta]
          exact List.mem_cons_self _ _
        · cases entry with
          | indir s =>
              rw [removeAll_step_indir envs rx key s rest cache hrx]
              exact ih cache ht
          | env a' =>
              rcases hg : envs.get? a' with _ | e'
              · rw [removeAll_step_dangling envs rx key a' rest cache hrx hg]
                exact List.mem_cons_of_mem _ (ih cache ht)
              · by_cases hm : e'.meta = true
                · rw [removeAll_step_meta envs rx key a' e' rest cache hrx hg hm]
                  exact List.mem_cons_of_mem _ (ih cache ht)
                · rw [removeAll_step_nonmeta envs rx key a' e' rest cache hrx hg
                    (Bool.eq_false_iff.mpr hm)]
                  exact ih _ ht
      · rw [removeAll_step_nomatch envs rx key entry rest cache (Bool.eq_false_iff.mpr hrx)]
        rcases List.mem_cons.mp hmem with hh | ht
        · rw [hh]; exact List.mem_cons_self _ _
        · exact List.mem_cons_of_mem _ (ih cache ht)

/-- The sweep drops every matching non-meta environment entry. -/
theorem removeAll_drops_nonmeta (envs : List SchemaEnvS) (rx : Option (String → Bool))
    {k : String} {a : Nat} {e : SchemaEnvS}
    (hget : envs.get? a = some e) (hmeta : e.meta = false) (hk : rxTest rx k = true) :
    ∀ (tbl : List (String × RefEntry)) (cache : List (Json × Nat)),
      (k, RefEntry.env a) ∉ (removeAllSchemas envs rx tbl cache).1 := by
  intro tbl
  induction tbl with
  | nil => intro cache h; simp [removeAllSchemas] at h
  | cons p rest ih =>
      obtain ⟨key, entry⟩ := p
      intro cache hmem
      by_cases hrx : rxTest rx key = true
      · cases entry with
        | indir s =>
            rw [removeAll_step_indir envs rx key s rest cache hrx] at hmem
            exact ih cache hmem
        | env a' =>
            rcases hg : envs.get? a' with _ | e'
            · rw [removeAll_step_dangling envs rx key a' rest cache hrx hg] at hmem
              rcases List.mem_cons.mp hmem with hh | ht
              · injection hh with h1 h2
                injection h2 with h2
                subst h2
                rw [hget] at hg
                exact Option.noConfusion hg
              · exact ih cache ht
            · by_cases hm : e'.meta = true
              · rw [removeAll_step_meta envs rx key a' e' rest cache hrx hg hm] at hmem
                rcases List.mem_cons.mp hmem with hh | ht
                · injection hh with h1 h2
                  injection h2 with h2
                  subst h2
                  rw [hget] at hg
                  injection hg with hg
                  subst hg
                  rw [hmeta] at hm
                  exact Bool.noConfusion hm
                · exact ih cache ht
              · rw [removeAll_step_nonmeta envs rx key a' e' rest cache hrx hg
                  (Bool.eq_false_iff.mpr hm)] at hmem
                exact ih _ hmem
      · rw [removeAll_step_nomatch envs rx key entry rest cache
          (Bool.eq_false_iff.mpr hrx)] at hmem
        rcases List.mem_cons.mp hmem with hh | ht
        · injection hh with h1 h2
          subst h1
          exact hrx (by rw [hk])
        · exact ih cache ht

/-- cacheGet misses a key exactly when no entry carries it. -/
theorem cacheGet_eq_none_iff (cache : List (Json × Nat)) (key : Json) :
    cacheGet cache key = none ↔ ∀ e ∈ cache, jeqb e.1 key = false := by
  induction cache with
  | nil => simp [cacheGet]
  | cons p ps ih =>
      by_cases h : jeqb p.1 key
      · simp [cacheGet, h]
      · simp [cacheGet, h, ih]

/-- Deleting a key from the cache makes its lookup miss. -/
theorem cacheGet_cacheDel_self (cache : List (Json × Nat)) (key : Json) :
    cacheGet (cacheDel cache key) key = none := by
  rw [cacheGet_eq_none_iff]
  intro e he
  have := List.mem_filter.mp he
  simpa using this.2

/-- Deletion only removes cache entries. -/
theorem cacheDel_subset {cache : List (Json × Nat)} {key : Json} :
    ∀ e ∈ cacheDel cache key, e ∈ cache := fun _ he => (List.mem_filter.mp he).1

/-- The sweep only removes cache entries. -/
theorem removeAll_cache_subset (envs : List SchemaEnvS) (rx : Option (String → Bool)) :
    ∀ (tbl : List (String × RefEntry)) (cache : List (Json × Nat)) e,
      e ∈ (removeAllSchemas envs rx tbl cache).2 → e ∈ cache := by
  intro tbl
  induction tbl with
  | nil => intro cache e he; simpa [removeAllSchemas] using he
  | cons p rest ih =>
      obtain ⟨key, entry⟩ := p
      intro cache e he
      by_cases hrx : rxTest rx key = true
      · cases entry with
        | indir s =>
            rw [removeAll_step_indir envs rx key s rest cache hrx] at he
            exact ih cache e he
        | env a' =>
            rcases hg : envs.get? a' with _ | e'
            · rw [removeAll_step_dangling envs rx key a' rest cache hrx hg] at he
              exact ih cache e he
            · by_cases hm : e'.meta = true
              · rw [removeAll_step_meta envs rx key a' e' rest cache hrx hg hm] at he
                exact ih cache e he
              · rw [removeAll_step_nonmeta envs rx key a' e' rest cache hrx hg
                  (Bool.eq_false_iff.mpr hm)] at he
                exact cacheDel_subset e (ih _ e he)
      · rw [removeAll_step_nomatch envs rx key entry rest cache
          (Bool.eq_false_iff.mpr hrx)] at he
        exact ih cache e he

/-- A missing cache key stays missing through the sweep. -/
theorem removeAll_cache_none (envs : List SchemaEnvS) (rx : Option (String → Bool))
    (key : Json) (tbl : List (String × RefEntry)) (cache : List (Json × Nat))
    (h : cacheGet cache key = none) :
    cacheGet (removeAllSchemas envs rx tbl cache).2 key = none := by
  rw [cacheGet_eq_none_iff] at h ⊢
  intro e he
  exact h e (removeAll_cache_subset envs rx tbl cache e he)

/-- After the sweep the cache line of every matching non-meta entry is
gone. -/
theorem removeAll_cache_removed (envs : List SchemaEnvS) (rx : Option (String → Bool))
    {k : String} {a : Nat} {e : SchemaEnvS}
    (hget : envs.get? a = some e) (hmeta : e.meta = false) (hk : rxTest rx k = true) :
    ∀ (tbl : List (String × RefEntry)) (cache : List (Json × Nat)),
      (k, RefEntry.env a) ∈ tbl →
      cacheGet (removeAllSchemas envs rx tbl cache).2 e.cacheKey = none := by
  intro tbl
  induction tbl with
  | nil => intro cache h; simp at h
  | cons p rest ih =>
      obtain ⟨key, entry⟩ := p
      intro cache hmem
      rcases List.mem_cons.mp hmem with hh | ht
      · injection hh with h1 h2
        subst h1
        rw [← h2]
        rw [removeAll_step_nonmeta envs rx k a e rest cache hk hget hmeta]
        exact removeAll_cache_none envs rx e.cacheKey rest _
          (cacheGet_cacheDel_self cache e.cacheKey)
      · by_cases hrx : rxTest rx key = true
        · cases entry with
          | indir s =>
              rw [removeAll_step_indir envs rx key s rest cache hrx]
              exact ih cache ht
          | env a' =>
              rcases hg : envs.get? a' with _ | e'
              · rw [removeAll_step_dangling envs rx key a' rest cache hrx hg]
                exact ih cache ht
              · by_cases hm : e'.meta = true
                · rw [removeAll_step_meta envs rx key a' e' rest cache hrx hg hm]
                  exact ih cache ht
                · rw [removeAll_step_nonmeta envs rx key a' e' rest cache hrx hg
                    (Bool.eq_false_iff.mpr hm)]
                  exact ih _ ht
        · rw [removeAll_step_nomatch envs rx key entry rest cache
            (Bool.eq_false_iff.mpr hrx)]
          exact ih cache ht

/-- C6: bulk removal preserves meta-schemas.  For removeSchema called with
undefined and for removeSchema called with any RegExp, every schemas or
refs entry holding a meta schema environment is still present afterwards;
matching non-meta environment entries are removed, and their cache lines
are deleted (the undefined variant clears the whole cache). -/
theorem C6_removeSchema_bulk_preserves_meta (st : AjvState) (rx : String → Bool) :
    (∀ k a e, st.envs.get? a = some e → e.meta = true →
      ((k, RefEntry.env a) ∈ st.schemas → (k, RefEntry.env a) ∈ (removeSchemaAll st).schemas) ∧
      ((k, RefEntry.env a) ∈ st.refs → (k, RefEntry.env a) ∈ (removeSchemaAll st).refs)) ∧
    (∀ k a e, st.envs.get? a = some e → e.meta = false →
      (k, RefEntry.env a) ∉ (removeSchemaAll st).schemas ∧
      (k, RefEntry.env a) ∉ (removeSchemaAll st).refs) ∧
    (removeSchemaAll st).cache = [] ∧
    (∀ k a e, st.envs.get? a = some e → e.meta = true →
      ((k, RefEntry.env a) ∈ st.schemas →
        (k, RefEntry.env a) ∈ (removeSchemaRegex st rx).schemas) ∧
      ((k, RefEntry.env a) ∈ st.refs →
        (k, RefEntry.env a) ∈ (removeSchemaRegex st rx).refs)) ∧
    (∀ k a e, st.envs.get? a = some e → e.meta = false → rx k = true →
      (k, RefEntry.env a) ∉ (removeSchemaRegex st rx).schemas ∧
      (k, RefEntry.env a) ∉ (removeSchemaRegex st rx).refs ∧
      ((k, RefEntry.env a) ∈ st.schemas ∨ (k, RefEntry.env a) ∈ st.refs →
        cacheGet (removeSchemaRegex st rx).cache e.cacheKey = none)) := by
  refine ⟨?_, ?_, rfl, ?_, ?_⟩
  · intro k a e hget hmeta
    exact ⟨fun hm => removeAll_keeps_meta st.envs none hget hmeta st.schemas st.cache hm,
      fun hm => removeAll_keeps_meta st.envs none hget hmeta st.refs _ hm⟩
  · intro k a e hget hmeta
    exact ⟨removeAll_drops_nonmeta st.envs none hget hmeta rfl st.schemas st.cache,
      removeAll_drops_nonmeta st.envs none hget hmeta rfl st.refs _⟩
  · intro k a e hget hmeta
    exact ⟨fun hm => removeAll_keeps_meta st.envs (some rx) hget hmeta st.schemas st.cache hm,
      fun hm => removeAll_keeps_meta st.envs (some rx) hget hmeta st.refs _ hm⟩
  · intro k a e hget hmeta hk
    have hk' : rxTest (some rx) k = true := hk
    refine ⟨removeAll_drops_nonmeta st.envs (some rx) hget hmeta hk' st.schemas st.cache,
      removeAll_drops_nonmeta st.envs (some rx) hget hmeta hk' st.refs _, ?_⟩
    intro hmem
    show cacheGet (removeAllSchemas st.envs (some rx) st.refs
      (removeAllSchemas st.envs (some rx) st.schemas st.cache).2).2 e.cacheKey = none
    rcases hmem with hmem | hmem
    · exact removeAll_cache_none st.envs (some rx) e.cacheKey st.refs _
        (removeAll_cache_removed st.envs (some rx) hget hmeta hk' st.schemas st.cache hmem)
    · exact removeAll_cache_removed st.envs (some rx) hget hmeta hk' st.refs _ hmem

/-- C6 witness: on a state with one meta and one non-meta schema, the
undefined-variant sweep keeps the meta entry and drops the other. -/
theorem C6_removeSchema_bulk_preserves_meta_witness :
    ("m", RefEntry.env 0) ∈
      (removeSchemaAll ⟨[⟨Json.null, Json.str "k0", true, none, "m"⟩,
        ⟨Json.bool true, Json.str "k1", false, none, "s"⟩], [],
        [("m", RefEntry.env 0), ("s", RefEntry.env 1)], [], 0⟩).schemas ∧
    ("s", RefEntry.env 1) ∉
      (removeSchemaAll ⟨[⟨Json.null, Json.str "k0", true, none, "m"⟩,
        ⟨Json.bool true, Json.str "k1", false, none, "s"⟩], [],
        [("m", RefEntry.env 0), ("s", RefEntry.env 1)], [], 0⟩).schemas := by
  have h := C6_removeSchema_bulk_preserves_meta
    (⟨[⟨Json.null, Json.str "k0", true, none, "m"⟩,
      ⟨Json.bool true, Json.str "k1", false, none, "s"⟩], [],
      [("m", RefEntry.env 0), ("s", RefEntry.env 1)], [], 0⟩) (fun _ => true)
  exact ⟨(h.1 "m" 0 ⟨Json.null, Json.str "k0", true, none, "m"⟩ rfl rfl).1 (by simp),
    (h.2.1 "s" 1 ⟨Json.bool true, Json.str "k1", false, none, "s"⟩ rfl rfl).1⟩

/-- C4: for the schema declaring property x with default 5 and type
number, with useDefaults on and outside composite contexts the property
subschema is applied unconditionally: a missing x is first injected with
the default and the injected value is then itself validated by the type
keyword, so validating the empty object yields true and mutates the data
to hold x = 5.  With useDefaults off the subschema runs only when the
property is present, so the empty object validates true and is left
unchanged. -/
theorem C4_properties_defaults :
    (∀ (fs : List (String × Json)) (d : Json), alookup "x" fs = none →
      propValidateX true false (some d) (.obj fs) = (isNumber d, .obj (updAssoc "x" d fs))) ∧
    (∀ (data : Json) (cr : Bool) (dflt : Option Json), getProp data "x" = none →
      propValidateX false cr dflt data = (true, data)) ∧
    propValidateX true false (some (.num 5)) (.obj []) = (true, .obj [("x", .num 5)]) ∧
    propValidateX false false (some (.num 5)) (.obj []) = (true, .obj []) := by
  refine ⟨?_, ?_, rfl, rfl⟩
  · intro fs d hmiss
    simp only [propValidateX, Bool.and_self, Option.isSome_some, if_true]
    have h1 : getProp (.obj fs) "x" = none := hmiss
    rw [h1]
    simp only [Option.isNone_none, if_true, setProp, Option.getD_some, getProp]
    rw [alookup_updAssoc_self "x" d fs]
    simp
  · intro data cr dflt hmiss
    simp only [propValidateX]
    rw [if_neg (by simp)]
    rw [hmiss]

/-- C4 witness: the general branches applied at the empty object and the
default 5. -/
theorem C4_properties_defaults_witness :
    propValidateX true false (some (.num 5)) (.obj [("y", .null)]) =
      (true, .obj [("y", .null), ("x", .num 5)]) ∧
    propValidateX false true (some (.num 5)) (.obj [("y", .null)]) =
      (true, .obj [("y", .null)]) := by
  refine ⟨?_, C4_properties_defaults.2.1 (.obj [("y", .null)]) true (some (.num 5)) (by rfl)⟩
  have h := C4_properties_defaults.1 [("y", .null)] (.num 5) (by rfl)
  rw [h]
  rfl

/-- Structural-equality test against a size bound: jeqb and its two list
companions decide plain equality. -/
theorem jeqb_iff_aux : ∀ n : Nat,
    (∀ a b : Json, sizeOf a ≤ n → (jeqb a b = true ↔ a = b)) ∧
    (∀ xs ys : List Json, sizeOf xs ≤ n → (jeqbL xs ys = true ↔ xs = ys)) ∧
    (∀ fs gs : List (String × Json), sizeOf fs ≤ n → (jeqbF fs gs = true ↔ fs = gs)) := by
  intro n
  induction n with
  | zero =>
      refine ⟨?_, ?_, ?_⟩
      · intro a b h
        exact absurd h (by cases a <;> simp)
      · intro xs ys h
        exact absurd h (by cases xs <;> simp)
      · intro fs gs h
        exact absurd h (by cases fs <;> simp)
  | succ n ih =>
      obtain ⟨ihJ, ihL, ihF⟩ := ih
      refine ⟨?_, ?_, ?_⟩
      · intro a b h
        cases a <;> cases b <;> simp only [jeqb] <;>
          first
          | (rename_i xs ys
             have hx : sizeOf xs ≤ n := by
               have := Json.arr.sizeOf_spec xs
               omega
             rw [ihL xs ys hx]
             simp)
          | (rename_i fs gs
             have hx : sizeOf fs ≤ n := by
               have := Json.obj.sizeOf_spec fs
               omega
             rw [ihF fs gs hx]
             simp)
          | simp
      · intro xs ys h
        cases xs with
        | nil => cases ys <;> simp [jeqbL]
        | cons x xs =>
            cases ys with
            | nil => simp [jeqbL]
            | cons y ys =>
                have h1 : sizeOf x ≤ n := by
                  have := List.cons.sizeOf_spec x xs
                  omega
                have h2 : sizeOf xs ≤ n := by
                  have := List.cons.sizeOf_spec x xs
                  omega
                simp only [jeqbL, Bool.and_eq_true]
                rw [ihJ x y h1, ihL xs ys h2]
                simp
      · intro fs gs h
        cases fs with
        | nil => cases gs <;> simp [jeqbF]
        | cons p fs =>
            obtain ⟨k, v⟩ := p
            cases gs with
            | nil => simp [jeqbF]
            | cons q gs =>
                obtain ⟨l, w⟩ := q
                have h1 : sizeOf v ≤ n := by
                  have := List.cons.sizeOf_spec (k, v) fs
                  have := Prod.mk.sizeOf_spec k v
                  omega
                have h2 : sizeOf fs ≤ n := by
                  have := List.cons.sizeOf_spec (k, v) fs
                  omega
                simp only [jeqbF, Bool.and_eq_true]
                rw [ihJ v w h1, ihF fs gs h2]
                simp [beq_iff_eq]

/-- jeqb decides plain structural equality of Json values. -/
theorem jeqb_eq_true_iff (a b : Json) : jeqb a b = true ↔ a = b :=
  (jeqb_iff_aux (sizeOf a)).1 a b (Nat.le_refl _)

/-- jeqb is reflexive. -/
theorem jeqb_refl (a : Json) : jeqb a a = true := (jeqb_eq_true_iff a a).mpr rfl

/-- Setting a list position makes reading it yield the new value. -/
theorem get?_set_self {α : Type} (x : α) :
    ∀ (l : List α) (i : Nat), i < l.length → (l.set i x).get? i = some x := by
  intro l
  induction l with
  | nil => intro i h; simp at h
  | cons y ys ih =>
      intro i h
      cases i with
      | zero => rfl
      | succ j => simpa using ih j (by simpa using h)

/-- A successful _addSchema leaves the cache pointing the canonical
serialization of the schema at the returned environment address (dedup),
and certifies that the schema had an admissible type. -/
theorem _addSchema_ok_cache (ctx : AjvCtx) (st : AjvState) (schema : Json)
    (meta vf af : Bool) {stA : AjvState} {addr : Nat}
    (h : _addSchema ctx st schema meta vf af = (stA, .ok addr)) :
    cacheGet stA.cache (canon schema) = some addr ∧
      jsTypeofObjectOrBool schema = true := by
  by_cases htype : jsTypeofObjectOrBool schema = true
  · refine ⟨?_, htype⟩
    simp only [_addSchema, htype, Bool.not_true, Bool.false_eq_true, if_false] at h
    split at h
    · rename_i addr0 hC
      rw [Prod.mk.injEq] at h
      obtain ⟨hfst, hsnd⟩ := h
      injection hsnd with hsnd
      rw [← hfst, ← hsnd]
      exact hC
    · rename_i hC
      split_ifs at h with h1 h2 h3 h4 <;> rw [Prod.mk.injEq] at h <;>
        first
        | exact Except.noConfusion h.2
        | (obtain ⟨hfst, hsnd⟩ := h
           injection hsnd with hsnd
           rw [← hfst, ← hsnd]
           simp [cacheGet, jeqb_refl])
  · have hf : jsTypeofObjectOrBool schema = false := Bool.eq_false_iff.mpr htype
    simp [_addSchema, hf] at h

/-- A successful compile leaves the canonical serialization of the schema
cached at an environment address whose stored environment memoizes the
returned validator. -/
theorem compileFn_ok_state (ctx : AjvCtx) (st : AjvState) (schema : Json) (meta : Bool)
    {st1 : AjvState} {v : Nat}
    (h : compileFn ctx st schema meta = (st1, .ok v)) :
    jsTypeofObjectOrBool schema = true ∧
    ∃ addr env, cacheGet st1.cache (canon schema) = some addr ∧
      st1.envs.get? addr = some env ∧ env.validate = some v := by
  simp only [compileFn] at h
  split at h
  · rename_i stA e heq
    rw [Prod.mk.injEq] at h
    exact Except.noConfusion h.2
  · rename_i stA addr heq
    have hcache := (_addSchema_ok_cache ctx st schema meta ctx.validateOpt
      ctx.addUsedSchema heq).1
    have htype := (_addSchema_ok_cache ctx st schema meta ctx.validateOpt
      ctx.addUsedSchema heq).2
    refine ⟨htype, ?_⟩
    split at h
    · rename_i v0 hbind
      rw [Prod.mk.injEq] at h
      obtain ⟨hfst, hsnd⟩ := h
      injection hsnd with hsnd
      obtain ⟨env, hget, hval⟩ := Option.bind_eq_some.mp hbind
      exact ⟨addr, env, by rw [← hfst]; exact hcache, by rw [← hfst]; exact hget,
        by rw [← hsnd]; exact hval⟩
    · rename_i hbind
      simp only [compileSchemaEnvModel] at h
      split at h
      · rw [Prod.mk.injEq] at h
        exact Except.noConfusion h.2
      · rename_i env0 hget0
        split at h
        · rename_i v0 hval0
          rw [Prod.mk.injEq] at h
          obtain ⟨hfst, hsnd⟩ := h
          injection hsnd with hsnd
          exact ⟨addr, env0, by rw [← hfst]; exact hcache, by rw [← hfst]; exact hget0,
            by rw [← hsnd]; exact hval0⟩
        · rename_i hval0
          rw [Prod.mk.injEq] at h
          obtain ⟨hfst, hsnd⟩ := h
          injection hsnd with hsnd
          have hlt : addr < stA.envs.length :=
            (List.get?_eq_some.mp hget0).1
          refine ⟨addr, { env0 with validate := some stA.nextV }, ?_, ?_, ?_⟩
          · rw [← hfst]
            exact hcache
          · rw [← hfst]
            exact get?_set_self _ stA.envs addr hlt
          · rw [← hsnd]

/-- C2: compiling the same schema twice returns the identical memoized
validator and leaves the state untouched: the serialized schema hits the
cache, the cached SchemaEnv is returned, and its validate field already
holds the validator produced by the first call. -/
theorem C2_compile_idempotent (ctx : AjvCtx) (st : AjvState) (schema : Json) (meta : Bool)
    (st1 : AjvState) (v : Nat)
    (h : compileFn ctx st schema meta = (st1, .ok v)) :
    compileFn ctx st1 schema meta = (st1, .ok v) := by
  obtain ⟨htype, addr, env, hcache, hget, hval⟩ := compileFn_ok_state ctx st schema meta h
  have hadd : _addSchema ctx st1 schema meta ctx.validateOpt ctx.addUsedSchema =
      (st1, .ok addr) := by
    simp only [_addSchema, htype, Bool.not_true, Bool.false_eq_true, if_false, hcache]
  have hbind : (st1.envs.get? addr).bind (fun e => e.validate) = some v := by
    rw [hget]
    simpa using hval
  simp only [compileFn, hadd, hbind]

/-- C2 witness: from the empty instance, compiling the empty object schema
a second time returns validator 0 again and leaves the state of the first
compile untouched. -/
theorem C2_compile_idempotent_witness :
    compileFn ⟨fun _ => true, true, true⟩
      ⟨[⟨Json.obj [], Json.obj [], false, some 0, ""⟩], [(Json.obj [], 0)], [],
        [("", RefEntry.env 0)], 1⟩ (Json.obj []) false =
      (⟨[⟨Json.obj [], Json.obj [], false, some 0, ""⟩], [(Json.obj [], 0)], [],
        [("", RefEntry.env 0)], 1⟩, .ok 0) :=
  C2_compile_idempotent ⟨fun _ => true, true, true⟩ ⟨[], [], [], [], 0⟩ (Json.obj []) false
    _ 0 (by
      simp +decide [compileFn, _addSchema, compileSchemaEnvModel, canon, canonF, sortFields,
        cacheGet, normalizeId, jsIdOf, schemaIdOf, checkUniqueB, alookup, updAssoc,
        jsTypeofObjectOrBool, jsTypeofObject])

/-- A value that is not a JavaScript object (in the typeof sense) carries
no $id member. -/
theorem schemaIdOf_of_not_object {schema : Json}
    (h : jsTypeofObject schema = false) : schemaIdOf schema = none := by
  cases schema <;> simp_all [jsTypeofObject, schemaIdOf]

/-- A successful addSchema body occupies the key, so running the same body
again fails with the duplicate-id error and changes nothing. -/
theorem addSchemaBody_dup (ctx : AjvCtx) (st : AjvState) (schema : Json)
    (id : Option String) (meta vs : Bool) {st1 : AjvState}
    (h : addSchemaBody ctx st schema none id meta vs = (st1, .ok ())) :
    addSchemaBody ctx st1 schema none id meta vs =
      (st1, .error (.duplicateId (normalizeId id))) := by
  simp only [addSchemaBody] at h ⊢
  split_ifs at h with hu
  · rw [Prod.mk.injEq] at h
    exact Except.noConfusion h.2
  · split at h
    · rename_i stA e heq
      rw [Prod.mk.injEq] at h
      exact Except.noConfusion h.2
    · rename_i stA addr heq
      rw [Prod.mk.injEq] at h
      obtain ⟨hfst, _⟩ := h
      have hkey : alookup (normalizeId id) st1.schemas = some (.env addr) := by
        rw [← hfst]
        exact alookup_updAssoc_self _ _ stA.schemas
      have hck : checkUniqueB st1 (normalizeId id) = true := by
        simp [checkUniqueB, hkey, entryTruthy]
      rw [if_pos hck]

/-- A successful single-schema addSchema occupies the normalized id key,
so adding the same schema again fails with the duplicate-id error. -/
theorem addSchemaOne_dup (ctx : AjvCtx) (st : AjvState) (schema : Json)
    (meta vs : Bool) {st1 : AjvState}
    (h : addSchemaOne ctx st schema none meta vs = (st1, .ok ())) :
    addSchemaOne ctx st1 schema none meta vs =
      (st1, .error (.duplicateId (normalizeId (jsIdOf schema)))) := by
  by_cases hto : jsTypeofObject schema = true
  · simp only [addSchemaOne, hto, if_true] at h ⊢
    rcases hsi : schemaIdOf schema with _ | j
    · rw [hsi] at h
      have hid : jsIdOf schema = none := by simp [jsIdOf, hsi]
      rw [hid]
      exact addSchemaBody_dup ctx st schema none meta vs h
    · rw [hsi] at h
      cases j with
      | str s =>
          have hid : jsIdOf schema = some s := by simp [jsIdOf, hsi]
          rw [hid]
          exact addSchemaBody_dup ctx st schema (some s) meta vs h
      | null =>
          rw [Prod.mk.injEq] at h
          exact Except.noConfusion h.2
      | undef =>
          rw [Prod.mk.injEq] at h
          exact Except.noConfusion h.2
      | bool b =>
          rw [Prod.mk.injEq] at h
          exact Except.noConfusion h.2
      | num n =>
          rw [Prod.mk.injEq] at h
          exact Except.noConfusion h.2
      | arr xs =>
          rw [Prod.mk.injEq] at h
          exact Except.noConfusion h.2
      | obj fs =>
          rw [Prod.mk.injEq] at h
          exact Except.noConfusion h.2
  · have hto' : jsTypeofObject schema = false := Bool.eq_false_iff.mpr hto
    have hid : jsIdOf schema = none := by simp [jsIdOf, schemaIdOf_of_not_object hto']
    simp only [addSchemaOne, hto', Bool.false_eq_true, if_false] at h ⊢
    rw [hid]
    exact addSchemaBody_dup ctx st schema none meta vs h

/-- C1 amended: after a first successful addSchema of a non-array schema
with no explicit key, a second addSchema of the same schema always fails
with the duplicate-id error, whether or not the schema declares an $id:
the normalized key (the normalized $id, or the empty string for an
anonymous schema) is already occupied in the schemas table, and
_checkUnique throws before the cache dedup is ever consulted. -/
theorem C1_addSchema_second_add_fails (ctx : AjvCtx) (st : AjvState) (schema : Json)
    (meta : Bool) (st1 : AjvState)
    (hnotarr : ∀ items, schema ≠ .arr items)
    (h : addSchemaFn ctx st schema none meta = (st1, .ok ())) :
    addSchemaFn ctx st1 schema none meta =
      (st1, .error (.duplicateId (normalizeId (jsIdOf schema)))) := by
  cases schema with
  | arr items => exact absurd rfl (hnotarr items)
  | null =>
      simp only [addSchemaFn] at h ⊢
      exact addSchemaOne_dup ctx st _ meta ctx.validateOpt h
  | undef =>
      simp only [addSchemaFn] at h ⊢
      exact addSchemaOne_dup ctx st _ meta ctx.validateOpt h
  | bool b =>
      simp only [addSchemaFn] at h ⊢
      exact addSchemaOne_dup ctx st _ meta ctx.validateOpt h
  | num n =>
      simp only [addSchemaFn] at h ⊢
      exact addSchemaOne_dup ctx st _ meta ctx.validateOpt h
  | str s =>
      simp only [addSchemaFn] at h ⊢
      exact addSchemaOne_dup ctx st _ meta ctx.validateOpt h
  | obj fs =>
      simp only [addSchemaFn] at h ⊢
      exact addSchemaOne_dup ctx st _ meta ctx.validateOpt h

/-- C1 counterexample: adding the same anonymous schema (no $id, no key)
twice does not succeed on the second call: the first call registers the
schema under the empty key in both tables, so the second call hits
_checkUnique and throws the duplicate-id error for the empty key, never
reaching the cache that would dedup the SchemaEnv. -/
theorem C1_addSchema_anonymous_counterexample :
    addSchemaFn ⟨fun _ => true, true, true⟩ ⟨[], [], [], [], 0⟩
      (Json.obj [("type", Json.str "number")]) none false =
      (⟨[⟨Json.obj [("type", Json.str "number")],
          Json.obj [("type", Json.str "number")], false, none, ""⟩],
        [(Json.obj [("type", Json.str "number")], 0)],
        [("", RefEntry.env 0)], [("", RefEntry.env 0)], 0⟩, .ok ()) ∧
    addSchemaFn ⟨fun _ => true, true, true⟩
      ⟨[⟨Json.obj [("type", Json.str "number")],
          Json.obj [("type", Json.str "number")], false, none, ""⟩],
        [(Json.obj [("type", Json.str "number")], 0)],
        [("", RefEntry.env 0)], [("", RefEntry.env 0)], 0⟩
      (Json.obj [("type", Json.str "number")]) none false =
      (⟨[⟨Json.obj [("type", Json.str "number")],
          Json.obj [("type", Json.str "number")], false, none, ""⟩],
        [(Json.obj [("type", Json.str "number")], 0)],
        [("", RefEntry.env 0)], [("", RefEntry.env 0)], 0⟩,
        .error (.duplicateId "")) := by
  constructor <;>
    simp +decide [addSchemaFn, addSchemaOne, addSchemaBody, _addSchema, canon, canonF,
      sortFields, cacheGet, checkUniqueB, alookup, updAssoc, normalizeId, jsIdOf,
      schemaIdOf, jsTypeofObject, jsTypeofObjectOrBool, entryTruthy]

/-- C1 witness: the amended theorem applied to the anonymous number schema
from the empty instance. -/
theorem C1_addSchema_second_add_fails_witness :
    addSchemaFn ⟨fun _ => true, true, true⟩
      ⟨[⟨Json.obj [("type", Json.str "number")],
          Json.obj [("type", Json.str "number")], false, none, ""⟩],
        [(Json.obj [("type", Json.str "number")], 0)],
        [("", RefEntry.env 0)], [("", RefEntry.env 0)], 0⟩
      (Json.obj [("type", Json.str "number")]) none false =
      (⟨[⟨Json.obj [("type", Json.str "number")],
          Json.obj [("type", Json.str "number")], false, none, ""⟩],
        [(Json.obj [("type", Json.str "number")], 0)],
        [("", RefEntry.env 0)], [("", RefEntry.env 0)], 0⟩,
        .error (.duplicateId "")) := by
  have h := C1_addSchema_second_add_fails ⟨fun _ => true, true, true⟩ ⟨[], [], [], [], 0⟩
    (Json.obj [("type", Json.str "number")]) false
    (⟨[⟨Json.obj [("type", Json.str "number")],
        Json.obj [("type", Json.str "number")], false, none, ""⟩],
      [(Json.obj [("type", Json.str "number")], 0)],
      [("", RefEntry.env 0)], [("", RefEntry.env 0)], 0⟩)
    (by intro items h; exact Json.noConfusion h)
    (by simp +decide [addSchemaFn, addSchemaOne, addSchemaBody, _addSchema, canon, canonF,
      sortFields, cacheGet, checkUniqueB, alookup, updAssoc, normalizeId, jsIdOf,
      schemaIdOf, jsTypeofObject, jsTypeofObjectOrBool, entryTruthy])
  simpa [normalizeId, jsIdOf, schemaIdOf, alookup] using h

/-- The Boolean key-duplication test agrees with Nodup. -/
theorem nodupKeysB_iff : ∀ ks : List String, nodupKeysB ks = true ↔ ks.Nodup := by
  intro ks
  induction ks with
  | nil => simp [nodupKeysB]
  | cons k ks ih =>
      simp [nodupKeysB, ih, List.nodup_cons]

/-- Array well-formedness means every element is well-formed. -/
theorem wfL_iff : ∀ xs : List Json, wfL xs = true ↔ ∀ x ∈ xs, wfJ x = true := by
  intro xs
  induction xs with
  | nil => simp [wfL]
  | cons x xs ih => simp [wfL, ih]

/-- Field-list well-formedness means every field value is well-formed. -/
theorem wfF_iff : ∀ fs : List (String × Json), wfF fs = true ↔ ∀ p ∈ fs, wfJ p.2 = true := by
  intro fs
  induction fs with
  | nil => simp [wfF]
  | cons p fs ih =>
      obtain ⟨k, v⟩ := p
      simp [wfF, ih]

/-- Object well-formedness splits into key-duplication freedom and
field-value well-formedness. -/
theorem wfJ_obj_iff (fs : List (String × Json)) :
    wfJ (.obj fs) = true ↔ (fs.map Prod.fst).Nodup ∧ ∀ p ∈ fs, wfJ p.2 = true := by
  simp [wfJ, Bool.and_eq_true, nodupKeysB_iff, wfF_iff]

/-- canonL is the elementwise canonicalization. -/
theorem canonL_eq_map : ∀ xs : List Json, canonL xs = xs.map canon := by
  intro xs
  induction xs with
  | nil => simp [canonL]
  | cons x xs ih => simp [canonL, ih]

/-- Canonicalizing field values keeps the keys. -/
theorem canonF_keys : ∀ fs : List (String × Json),
    (canonF fs).map Prod.fst = fs.map Prod.fst := by
  intro fs
  induction fs with
  | nil => simp [canonF]
  | cons p fs ih =>
      obtain ⟨k, v⟩ := p
      simp [canonF, ih]

/-- Looking a key up after canonicalizing field values canonicalizes the
found value. -/
theorem alookup_canonF (k : String) : ∀ fs : List (String × Json),
    alookup k (canonF fs) = (alookup k fs).map canon := by
  intro fs
  induction fs with
  | nil => simp [canonF, alookup]
  | cons p fs ih =>
      obtain ⟨k', v⟩ := p
      by_cases hk : k' = k
      · simp [canonF, alookup, hk]
      · simp [canonF, alookup, hk, ih]

/-- The head of an association list answers its own key. -/
theorem alookup_head {β : Type} (p : String × β) (ps : List (String × β)) :
    alookup p.1 (p :: ps) = some p.2 := by
  simp [alookup]

/-- A differing head does not affect a lookup. -/
theorem alookup_cons_ne {β : Type} {k : String} (p : String × β) (ps : List (String × β))
    (h : p.1 ≠ k) : alookup k (p :: ps) = alookup k ps := by
  simp [alookup, h]

/-- Sorting the fields keeps them a permutation of the original. -/
theorem sortFields_perm (fs : List (String × Json)) : (sortFields fs).Perm fs :=
  List.perm_insertionSort keyLe fs

/-- Sorted fields are key-sorted. -/
theorem sortFields_sorted (fs : List (String × Json)) :
    List.Sorted keyLe (sortFields fs) :=
  List.sorted_insertionSort keyLe fs

/-- Lookup in a duplicate-free association list is stable under
permutation. -/
theorem alookup_perm {β : Type} (k : String) :
    ∀ {l l' : List (String × β)}, l.Perm l' → (l.map Prod.fst).Nodup →
      alookup k l = alookup k l' := by
  intro l l' hperm
  induction hperm with
  | nil => intro _; rfl
  | cons p hperm ih =>
      intro hnd
      simp only [List.map_cons, List.nodup_cons] at hnd
      by_cases hk : p.1 = k
      · simp [alookup, hk]
      · simp only [alookup]
        rw [if_neg hk, if_neg hk]
        exact ih hnd.2
  | swap p q l =>
      intro hnd
      simp only [List.map_cons, List.nodup_cons, List.mem_cons] at hnd
      have hpq : q.1 ≠ p.1 := fun hc => hnd.1 (Or.inl hc)
      by_cases hk : p.1 = k
      · rw [show alookup k (q :: p :: l) = alookup k (p :: l) from
          alookup_cons_ne q _ (by rw [hk] at hpq; exact hpq)]
        simp [alookup, hk]
      · by_cases hk2 : q.1 = k
        · simp [alookup, hk2, hk]
        · simp [alookup, hk, hk2]
  | trans h1 h2 ih1 ih2 =>
      intro hnd
      rw [ih1 hnd]
      have hnd2 : _ := ((h1.map Prod.fst).nodup_iff).mp hnd
      exact ih2 hnd2

/-- Two key-sorted association lists with duplicate-free keys that answer
every lookup identically are equal. -/
theorem sorted_nodup_keys_ext :
    ∀ {l l' : List (String × Json)},
      List.Sorted keyLe l → List.Sorted keyLe l' →
      (l.map Prod.fst).Nodup → (l'.map Prod.fst).Nodup →
      (∀ k, alookup k l = alookup k l') → l = l' := by
  intro l
  induction l with
  | nil =>
      intro l' _ _ _ _ hlk
      cases l' with
      | nil => rfl
      | cons q qs =>
          have h := hlk q.1
          rw [alookup_head q qs] at h
          simp [alookup] at h
  | cons p ps ih =>
      intro l' hs hs' hnd hnd' hlk
      cases l' with
      | nil =>
          have h := hlk p.1
          rw [alookup_head p ps] at h
          simp [alookup] at h
      | cons q qs =>
          have hpmem : p.1 ∈ (q :: qs).map Prod.fst := by
            rw [← alookup_isSome_iff p.1 (q :: qs), ← hlk p.1, alookup_head p ps]
            rfl
          have hqmem : q.1 ∈ (p :: ps).map Prod.fst := by
            rw [← alookup_isSome_iff q.1 (p :: ps), hlk q.1, alookup_head q qs]
            rfl
          have hkey : p.1 = q.1 := by
            simp only [List.map_cons, List.mem_cons] at hpmem hqmem
            rcases hpmem with h1 | h1
            · exact h1
            · rcases hqmem with h2 | h2
              · exact h2.symm
              · obtain ⟨r, hr, hr1⟩ := List.mem_map.mp h1
                obtain ⟨r', hr', hr1'⟩ := List.mem_map.mp h2
                have hle1 : keyLe q r := List.rel_of_sorted_cons hs' r hr
                have hle2 : keyLe p r' := List.rel_of_sorted_cons hs r' hr'
                rw [keyLe] at hle1 hle2
                rw [hr1] at hle1
                rw [hr1'] at hle2
                exact le_antisymm hle2 hle1
          have hval : p.2 = q.2 := by
            have h := hlk p.1
            rw [alookup_head p ps] at h
            rw [show alookup p.1 (q :: qs) = some q.2 from by rw [hkey]; exact alookup_head q qs] at h
            exact Option.some.inj h
          have hhead : p = q := Prod.ext hkey hval
          simp only [List.map_cons, List.nodup_cons] at hnd hnd'
          have htail : ∀ k, alookup k ps = alookup k qs := by
            intro k
            by_cases hk : k = p.1
            · subst hk
              rw [(alookup_eq_none_iff p.1 ps).mpr hnd.1,
                (alookup_eq_none_iff p.1 qs).mpr (by rw [hkey]; exact hnd'.1)]
            · rw [← alookup_cons_ne p ps (fun hc => hk hc.symm),
                ← alookup_cons_ne q qs (fun hc => hk (by rw [hkey]; exact hc.symm)),
                hlk k]
          rw [hhead, ih hs.of_cons hs'.of_cons hnd.2 hnd'.2 htail]

/-- The canonical (sorted, value-canonicalized) field list of an object
answers every lookup with the canonicalized original value. -/
theorem alookup_canon_obj (k : String) (fs : List (String × Json))
    (hnd : (fs.map Prod.fst).Nodup) :
    alookup k (sortFields (canonF fs)) = (alookup k fs).map canon := by
  have hnd2 : ((canonF fs).map Prod.fst).Nodup := by
    rw [canonF_keys]
    exact hnd
  have hnd3 : ((sortFields (canonF fs)).map Prod.fst).Nodup :=
    (((sortFields_perm (canonF fs)).map Prod.fst).nodup_iff).mpr hnd2
  rw [alookup_perm k (sortFields_perm (canonF fs)) hnd3, alookup_canonF]

/-- Canonical forms coincide exactly on deeply structurally equal
well-formed values (strong induction on the size of the first value). -/
theorem canon_deepEq_aux : ∀ n : Nat, ∀ a b : Json,
    sizeOf a ≤ n → wfJ a = true → wfJ b = true →
    (canon a = canon b ↔ DeepEq a b) := by
  intro n
  induction n with
  | zero =>
      intro a b h
      exact absurd h (by cases a <;> simp)
  | succ n ih =>
      intro a b hsz hwa hwb
      cases a <;> cases b
      case arr.arr =>
        rename_i xs ys
        simp only [canon, Json.arr.injEq]
        rw [canonL_eq_map, canonL_eq_map]
        simp only [wfJ] at hwa hwb
        constructor
        · intro h
          have hlen : xs.length = ys.length := by
            have := congrArg List.length h
            simpa using this
          refine DeepEq.arr hlen ?_
          intro i h1 h2
          have hmx := List.get_mem xs i h1
          have hmy := List.get_mem ys i h2
          have hszx : sizeOf (xs.get ⟨i, h1⟩) ≤ n := by
            have h3 := List.sizeOf_lt_of_mem hmx
            have h4 := Json.arr.sizeOf_spec xs
            omega
          have hcan : canon (xs.get ⟨i, h1⟩) = canon (ys.get ⟨i, h2⟩) := by
            have hq := congrArg (fun l => l.get? i) h
            simp only [List.get?_map] at hq
            rw [List.get?_eq_get h1, List.get?_eq_get h2] at hq
            simpa using hq
          exact (ih _ _ hszx ((wfL_iff xs).mp hwa _ hmx) ((wfL_iff ys).mp hwb _ hmy)).mp hcan
        · intro h
          cases h with
          | arr hlen hpt =>
              apply List.ext_get (by simpa using hlen)
              intro i h1 h2
              simp only [List.get_map]
              have h1' : i < xs.length := by simpa using h1
              have h2' : i < ys.length := by simpa using h2
              have hmx := List.get_mem xs i h1'
              have hmy := List.get_mem ys i h2'
              have hszx : sizeOf (xs.get ⟨i, h1'⟩) ≤ n := by
                have h3 := List.sizeOf_lt_of_mem hmx
                have h4 := Json.arr.sizeOf_spec xs
                omega
              exact (ih _ _ hszx ((wfL_iff xs).mp hwa _ hmx)
                ((wfL_iff ys).mp hwb _ hmy)).mpr (hpt i h1' h2')
      case obj.obj =>
        rename_i fs gs
        obtain ⟨hndf, hwf⟩ := (wfJ_obj_iff fs).mp hwa
        obtain ⟨hndg, hwg⟩ := (wfJ_obj_iff gs).mp hwb
        simp only [canon, Json.obj.injEq]
        constructor
        · intro h
          refine DeepEq.obj ?_ ?_
          · intro k
            have hq := congrArg (alookup k) h
            rw [alookup_canon_obj k fs hndf, alookup_canon_obj k gs hndg] at hq
            cases hf : alookup k fs <;> cases hg : alookup k gs <;>
              rw [hf, hg] at hq <;> first | rfl | simp_all
          · intro k v w hf hg
            have hq := congrArg (alookup k) h
            rw [alookup_canon_obj k fs hndf, alookup_canon_obj k gs hndg, hf, hg] at hq
            simp at hq
            have hmem := alookup_some_mem k v fs hf
            have hszv : sizeOf v ≤ n := by
              have h3 := List.sizeOf_lt_of_mem hmem
              have h4 := Json.obj.sizeOf_spec fs
              have h5 := Prod.mk.sizeOf_spec k v
              omega
            exact (ih v w hszv (hwf _ hmem) (hwg _ (alookup_some_mem k w gs hg))).mp hq
        · intro h
          cases h with
          | obj hdom hval =>
              have hnd2f : ((canonF fs).map Prod.fst).Nodup := by
                rw [canonF_keys]; exact hndf
              have hnd2g : ((canonF gs).map Prod.fst).Nodup := by
                rw [canonF_keys]; exact hndg
              apply sorted_nodup_keys_ext (sortFields_sorted _) (sortFields_sorted _)
                ((((sortFields_perm (canonF fs)).map Prod.fst).nodup_iff).mpr hnd2f)
                ((((sortFields_perm (canonF gs)).map Prod.fst).nodup_iff).mpr hnd2g)
              intro k
              rw [alookup_canon_obj k fs hndf, alookup_canon_obj k gs hndg]
              cases hf : alookup k fs with
              | none =>
                  have hd := hdom k
                  rw [hf] at hd
                  cases hg : alookup k gs with
                  | none => rfl
                  | some w => rw [hg] at hd; simp at hd
              | some v =>
                  have hd := hdom k
                  rw [hf] at hd
                  cases hg : alookup k gs with
                  | none => rw [hg] at hd; simp at hd
                  | some w =>
                      have hde := hval k v w hf hg
                      have hmem := alookup_some_mem k v fs hf
                      have hszv : sizeOf v ≤ n := by
                        have h3 := List.sizeOf_lt_of_mem hmem
                        have h4 := Json.obj.sizeOf_spec fs
                        have h5 := Prod.mk.sizeOf_spec k v
                        omega
                      have hcv : canon v = canon w :=
                        (ih v w hszv (hwf _ hmem)
                          (hwg _ (alookup_some_mem k w gs hg))).mpr hde
                      simp [hcv]
      all_goals
        first
        | exact ⟨fun _ => DeepEq.null, fun _ => rfl⟩
        | exact ⟨fun _ => DeepEq.undef, fun _ => rfl⟩
        | (constructor
           · intro h
             simp only [canon] at h
             cases h
             first
             | exact DeepEq.bool _
             | exact DeepEq.num _
             | exact DeepEq.str _
           · intro h
             cases h
             rfl)
        | exact ⟨fun h => by simp [canon] at h, fun h => nomatch h⟩

/-- Canonical forms coincide exactly on deeply structurally equal
well-formed values. -/
theorem canon_eq_iff_deepEq (a b : Json) (ha : wfJ a = true) (hb : wfJ b = true) :
    canon a = canon b ↔ DeepEq a b :=
  canon_deepEq_aux (sizeOf a) a b (Nat.le_refl _) ha hb

/-- C3: the compiled enum validator accepts exactly the data deeply
structurally equal to one of the enum members: the hash precomputed from
the stable canonicalization of each member decides exactly deep equality
on well-formed values.  In particular, against the members of the schema
holding the two objects with a at 1 and b at 2: the object with a at 1
validates true; the object with a at 1 and b at 2 validates false; and the
object with b at 2 and a at the JavaScript value undefined validates
false. -/
theorem C3_enum_deep_equality :
    (∀ (members : List Json) (data : Json), (∀ m ∈ members, wfJ m = true) →
      wfJ data = true →
      (enumValidate members data = true ↔ ∃ m ∈ members, DeepEq m data)) ∧
    enumValidate exEnumMembers (.obj [("a", .num 1)]) = true ∧
    enumValidate exEnumMembers (.obj [("a", .num 1), ("b", .num 2)]) = false ∧
    enumValidate exEnumMembers (.obj [("b", .num 2), ("a", .undef)]) = false := by
  refine ⟨?_, ?_, ?_, ?_⟩
  · intro members data hm hd
    simp only [enumValidate, List.any_eq_true]
    constructor
    · rintro ⟨m, hmem, hj⟩
      exact ⟨m, hmem,
        (canon_eq_iff_deepEq m data (hm m hmem) hd).mp ((jeqb_eq_true_iff _ _).mp hj)⟩
    · rintro ⟨m, hmem, hde⟩
      exact ⟨m, hmem,
        (jeqb_eq_true_iff _ _).mpr ((canon_eq_iff_deepEq m data (hm m hmem) hd).mpr hde)⟩
  · simp +decide [enumValidate, exEnumMembers, canon, canonF, canonL, sortFields, keyLe,
      jeqb, jeqbF, jeqbL]
  · simp +decide [enumValidate, exEnumMembers, canon, canonF, canonL, sortFields, keyLe,
      jeqb, jeqbF, jeqbL]
  · simp +decide [enumValidate, exEnumMembers, canon, canonF, canonL, sortFields, keyLe,
      jeqb, jeqbF, jeqbL]

/-- C3 witness: the characterization applied to the scenario members and
the data holding a at 1, whose membership validates true. -/
theorem C3_enum_deep_equality_witness :
    enumValidate exEnumMembers (.obj [("a", .num 1)]) = true ↔
      ∃ m ∈ exEnumMembers, DeepEq m (.obj [("a", .num 1)]) :=
  C3_enum_deep_equality.1 exEnumMembers (.obj [("a", .num 1)])
    (by simp +decide [exEnumMembers, wfJ, wfF, nodupKeysB])
    (by simp +decide [wfJ, wfF, nodupKeysB])
